import Mathlib

/-!
Shallow embedding of the grokfast gradient-filter core
(`grokfast.py`: `gradfilter_ma`, `gradfilter_ema`, `smoother`,
`gradfilter_kalman`) and of the filter-kind dispatch in the training loop
(`main_transformer.py`, the `args.filter` branch).

Modelling conventions:
* Every tensor operation performed by the filters (`+`, `-`, `*` by a
  scalar, `/` by a scalar, `sum` over a deque) is elementwise, so a tensor
  is modelled by one of its elements, an exact rational `ℚ` (the floating
  point rounding of the source is not modelled).
* A module is an association list of named parameters, mirroring
  `m.named_parameters()` (names are unique in PyTorch; theorems that need
  this take a `Nodup` hypothesis on the name list).
* A Python `dict` keyed by parameter name is an association list with
  first-match lookup and in-place update of the first matching key.
* A `collections.deque(maxlen=w)` is a list together with its recorded
  `maxlen`; appending drops the oldest element once the capacity is full.
* A `raise` (`ValueError`, and a `KeyError` from `grads[n]` on a missing
  key) is an `Except.error`; since the Python caller keeps its references
  to the module and the state dict, the error value carries the partially
  mutated module and state exactly as they are at the raise point.
* Division by zero, which Python would raise on (`ZeroDivisionError` for
  `mean` over an empty deque) is total in `ℚ` with value `0`; no claim
  exercises that corner.
-/

set_option autoImplicit false

/-- Equality of filter outcomes is decidable, so that concrete runs can be
settled by evaluation. -/
instance {ε α : Type} [DecidableEq ε] [DecidableEq α] : DecidableEq (Except ε α) := by
  intro x y
  cases x <;> cases y
  case ok.ok a b =>
    exact if h : a = b then .isTrue (by rw [h]) else .isFalse (by simp [h])
  case error.error a b =>
    exact if h : a = b then .isTrue (by rw [h]) else .isFalse (by simp [h])
  case ok.error a b => exact .isFalse (by simp)
  case error.ok a b => exact .isFalse (by simp)

namespace Grokfast

/-- One element of a named parameter tensor: the `requires_grad` flag, the
parameter value `p.data`, and the gradient `p.grad` (`none` models
`p.grad is None`). -/
structure Param where
  requiresGrad : Bool
  data : ℚ
  grad : Option ℚ
deriving DecidableEq

/-- `m.named_parameters()`: the ordered list of named parameters. -/
abbrev Module := List (String × Param)

/-- The observable gradient content of a module: each parameter's name
together with its gradient. -/
def gradsOf (m : Module) : List (String × Option ℚ) :=
  m.map (fun np => (np.1, np.2.grad))

/-- The list of parameter names, in order. -/
def namesOf (m : Module) : List String :=
  m.map Prod.fst

/-- First-match lookup in an association list (a Python `dict` read). -/
def lookupKey {β : Type} (k : String) : List (String × β) → Option β
  | [] => none
  | (k', v) :: rest => if k' = k then some v else lookupKey k rest

/-- Replace the value stored under the first occurrence of key `k`
(a Python `dict` write to an existing key). -/
def updateKey {β : Type} (k : String) (v : β) : List (String × β) → List (String × β)
  | [] => []
  | (k', v') :: rest => if k' = k then (k, v) :: rest else (k', v') :: updateKey k v rest

/-- `collections.deque(maxlen := w)` holding gradient snapshots. -/
structure GDeque where
  maxlen : Nat
  buf : List ℚ
deriving DecidableEq

/-- `deque.append x`: push `x` at the right, evicting from the left when
the capacity is exceeded. -/
def GDeque.push (d : GDeque) (x : ℚ) : GDeque :=
  { d with buf := (d.buf ++ [x]).drop (d.buf.length + 1 - d.maxlen) }

/-- `len(deque)`. -/
def GDeque.len (d : GDeque) : Nat := d.buf.length

/-- The names of the parameters that pass the
`p.requires_grad and p.grad is not None` test; exactly the keys every
filter creates state for and updates. -/
def goodNames (m : Module) : List String :=
  (m.filter (fun np => np.2.requiresGrad && np.2.grad.isSome)).map Prod.fst

/-- The state-initialisation dict comprehension shared by all filters:
`{n: f(p) for n, p in m.named_parameters() if p.requires_grad and p.grad is not None}`. -/
def initState {α : Type} (f : Param → α) (m : Module) : List (String × α) :=
  m.filterMap (fun np =>
    if np.2.requiresGrad && np.2.grad.isSome then some (np.1, f np.2) else none)

/-- A filter call either returns the updated module and state, or raises,
carrying the message and the module and state as mutated up to the raise. -/
abbrev FilterResult (σ : Type) := Except (String × Module × σ) (Module × σ)

/-- Prepend the processed head parameter onto the result of filtering the
rest of the module (both on success and in the raising case, since the
caller's module keeps every in-place mutation already performed). -/
def consOk {σ : Type} (entry : String × Param) (r : FilterResult σ) : FilterResult σ :=
  match r with
  | .ok (m, st) => .ok (entry :: m, st)
  | .error (msg, m, st) => .error (msg, entry :: m, st)

/-! ### MovingAverage filter (`gradfilter_ma`) -/

/-- Per-parameter MA state: the window deque of past gradient snapshots. -/
abbrev MaState := List (String × GDeque)

/-- The MA branch on `filter_type`: `mean` and `sum` aggregate the window,
anything else is the `raise ValueError(f"Unrecognized filter_type ...")`
branch, modelled by `none`. -/
def aggregate (filter_type : String) (buf : List ℚ) : Option ℚ :=
  if filter_type = "mean" then some (buf.sum / (buf.length : ℚ))
  else if filter_type = "sum" then some buf.sum
  else none

/-- `grads = {n: deque(maxlen=window_size) for ...}` of `gradfilter_ma`. -/
def maInit (window_size : Nat) (m : Module) : MaState :=
  initState (fun _ => ⟨window_size, []⟩) m

/-- The `for n, p in m.named_parameters()` loop of `gradfilter_ma`:
append the gradient snapshot, and when
`not warmup or len(grads[n]) == window_size and not trigger`
add `aggregate * lamb` to the gradient. -/
def maLoop (window_size : Nat) (lamb : ℚ) (filter_type : String)
    (warmup trigger : Bool) : Module → MaState → FilterResult MaState
  | [], grads => .ok ([], grads)
  | (n, p) :: rest, grads =>
    if p.requiresGrad && p.grad.isSome then
      match lookupKey n grads with
      | none => .error ("KeyError: " ++ n, (n, p) :: rest, grads)
      | some d =>
        let g := p.grad.getD 0
        let d1 := d.push g
        let grads1 := updateKey n d1 grads
        if !warmup || (d1.len == window_size && !trigger) then
          match aggregate filter_type d1.buf with
          | none =>
            .error ("Unrecognized filter_type " ++ filter_type, (n, p) :: rest, grads1)
          | some avg =>
            consOk (n, { p with grad := some (g + avg * lamb) })
              (maLoop window_size lamb filter_type warmup trigger rest grads1)
        else
          consOk (n, p) (maLoop window_size lamb filter_type warmup trigger rest grads1)
    else
      consOk (n, p) (maLoop window_size lamb filter_type warmup trigger rest grads)

/-- `gradfilter_ma` (source defaults: `window_size=100`, `lamb=5`,
`filter_type="mean"`, `warmup=True`, `trigger=False`). -/
def gradfilter_ma (m : Module) (grads : Option MaState) (window_size : Nat)
    (lamb : ℚ) (filter_type : String) (warmup trigger : Bool) : FilterResult MaState :=
  maLoop window_size lamb filter_type warmup trigger m
    (grads.getD (maInit window_size m))

/-! ### Exponential filter (`gradfilter_ema`) -/

/-- Per-parameter EMA state: the running decayed accumulator. -/
abbrev EmaState := List (String × ℚ)

/-- `grads = {n: p.grad.data.detach() for ...}` of `gradfilter_ema`. -/
def emaInit (m : Module) : EmaState :=
  initState (fun p => p.grad.getD 0) m

/-- The loop of `gradfilter_ema`: when the trigger is off,
`grads[n] = grads[n]*alpha + grad*(1-alpha)` then
`grad = (grad + grads[n]*lamb) / (1 + lamb)`. -/
def emaLoop (alpha lamb : ℚ) (trigger : Bool) : Module → EmaState → FilterResult EmaState
  | [], grads => .ok ([], grads)
  | (n, p) :: rest, grads =>
    if p.requiresGrad && p.grad.isSome then
      if !trigger then
        match lookupKey n grads with
        | none => .error ("KeyError: " ++ n, (n, p) :: rest, grads)
        | some acc =>
          let g := p.grad.getD 0
          let acc1 := acc * alpha + g * (1 - alpha)
          let grads1 := updateKey n acc1 grads
          consOk (n, { p with grad := some ((g + acc1 * lamb) / (1 + lamb)) })
            (emaLoop alpha lamb trigger rest grads1)
      else
        consOk (n, p) (emaLoop alpha lamb trigger rest grads)
    else
      consOk (n, p) (emaLoop alpha lamb trigger rest grads)

/-- `gradfilter_ema` (source defaults: `alpha=0.98`, `lamb=2`,
`trigger=False`). -/
def gradfilter_ema (m : Module) (grads : Option EmaState) (alpha lamb : ℚ)
    (trigger : Bool) : FilterResult EmaState :=
  emaLoop alpha lamb trigger m (grads.getD (emaInit m))

/-! ### Low-pass smoother (`smoother`) -/

/-- The smoother's returned state: a snapshot of gradients (the source
initialises it when absent and never writes it afterwards). -/
abbrev SmootherState := List (String × ℚ)

/-- `grads = {n: p.grad.data.detach() for ...}` of `smoother`. -/
def smootherInit (m : Module) : SmootherState :=
  initState (fun p => p.grad.getD 0) m

/-- `z = {n: p.data.clone() for ...}`: the shadow dict, rebuilt from the
current parameter values inside every call. -/
def smootherZInit (m : Module) : List (String × ℚ) :=
  initState (fun p => p.data) m

/-- The loop of `smoother`: `z[n] = z[n] + beta*(p.data - z[n])`, then
`p.grad.data -= pp*(p.data - z[n])`.  The `z[n]` read cannot miss (the
`z` dict is built over the same comprehension as the loop's guard), so a
missing key skips the parameter. -/
def smootherLoop (beta pp : ℚ) :
    Module → List (String × ℚ) → Module × List (String × ℚ)
  | [], z => ([], z)
  | (n, p) :: rest, z =>
    if p.requiresGrad && p.grad.isSome then
      match lookupKey n z with
      | none =>
        let r := smootherLoop beta pp rest z
        ((n, p) :: r.1, r.2)
      | some zn =>
        let zn1 := zn + beta * (p.data - zn)
        let z1 := updateKey n zn1 z
        let g := p.grad.getD 0
        let r := smootherLoop beta pp rest z1
        ((n, { p with grad := some (g - pp * (p.data - zn1)) }) :: r.1, r.2)
    else
      let r := smootherLoop beta pp rest z
      ((n, p) :: r.1, r.2)

/-- `smoother` (source defaults: `beta=0.98`, `pp=0.01`): runs the shadow
update loop over a freshly built `z` and returns the (untouched) `grads`
state. -/
def smoother (m : Module) (grads : Option SmootherState) (beta pp : ℚ) :
    Module × SmootherState :=
  ((smootherLoop beta pp m (smootherZInit m)).1, grads.getD (smootherInit m))

/-! ### Kalman filter (`gradfilter_kalman`) -/

/-- Per-parameter (per-element) Kalman state: estimate `x`, variance `P`. -/
structure KState where
  x : ℚ
  P : ℚ
deriving DecidableEq

/-- `grads = {n: {"x": zeros, "P": ones * measurement_noise} for ...}`. -/
def kalmanInit (measurement_noise : ℚ) (m : Module) : List (String × KState) :=
  initState (fun _ => ⟨0, measurement_noise⟩) m

/-- Per-parameter Kalman state dict. -/
abbrev KalmanState := List (String × KState)

/-- One predict/update cycle of the per-element Kalman recursion of
`gradfilter_kalman`, fed the measurement `g`. -/
def kalmanStep (process_noise measurement_noise g : ℚ) (s : KState) : KState :=
  let x_pred := s.x
  let P_pred := s.P + process_noise
  let y := g - x_pred
  let S := P_pred + measurement_noise
  let K := P_pred / S
  ⟨x_pred + K * y, (1 - K) * P_pred⟩

/-- The loop of `gradfilter_kalman`: run `kalmanStep` on the stored state,
store the result back, and add `x * lamb` to the gradient. -/
def kalmanLoop (process_noise measurement_noise lamb : ℚ) :
    Module → KalmanState → FilterResult KalmanState
  | [], grads => .ok ([], grads)
  | (n, p) :: rest, grads =>
    if p.requiresGrad && p.grad.isSome then
      match lookupKey n grads with
      | none => .error ("KeyError: " ++ n, (n, p) :: rest, grads)
      | some s =>
        let g := p.grad.getD 0
        let s1 := kalmanStep process_noise measurement_noise g s
        let grads1 := updateKey n s1 grads
        consOk (n, { p with grad := some (g + s1.x * lamb) })
          (kalmanLoop process_noise measurement_noise lamb rest grads1)
    else
      consOk (n, p) (kalmanLoop process_noise measurement_noise lamb rest grads)

/-- `gradfilter_kalman` (source defaults: `process_noise=1e-4`,
`measurement_noise=1e-2`, `lamb=2`). -/
def gradfilter_kalman (m : Module) (grads : Option KalmanState)
    (process_noise measurement_noise lamb : ℚ) : FilterResult KalmanState :=
  kalmanLoop process_noise measurement_noise lamb m
    (grads.getD (kalmanInit measurement_noise m))

/-- The per-element Kalman state after `n` calls that all measure the same
constant gradient `g`, starting from the source's initial state
(`x = 0`, `P = measurement_noise`). -/
def kalmanIter (process_noise measurement_noise g : ℚ) : Nat → KState
  | 0 => ⟨0, measurement_noise⟩
  | n + 1 => kalmanStep process_noise measurement_noise g
      (kalmanIter process_noise measurement_noise g n)

/-! ### Filter-kind dispatch (`main_transformer.py`, train loop) -/

/-- The per-run state object, tagged by the filter kind that produced it. -/
inductive AnyState where
  | ma : MaState → AnyState
  | ema : EmaState → AnyState
  | smoother : SmootherState → AnyState
  | kalman : KalmanState → AnyState
deriving DecidableEq

/-- The hyperparameters the training loop forwards to the filters. -/
structure TrainArgs where
  filter : String
  window_size : Nat
  lamb : ℚ
  alpha : ℚ
  beta : ℚ
  pp : ℚ
  process_noise : ℚ
  measurement_noise : ℚ
deriving DecidableEq

/-- Propagate a filter call's outcome to the dispatch level: a raise
becomes the exception text the training loop would see. -/
def liftFilterResult {σ : Type} (tag : σ → AnyState) (r : FilterResult σ) :
    Except String (Module × Option AnyState) :=
  match r with
  | .ok (m, st) => .ok (m, some (tag st))
  | .error (msg, _, _) => .error msg

/-- The `args.filter` dispatch of the training step
(`main_transformer.py` lines 157-168): `none` passes through, the four
known kinds call their filter with the threaded state (a state tagged
with a different kind than the active one would crash inside the filter
and is reported as an error), and any other string is
`raise ValueError(f"Invalid update filter type ...")`. -/
def filterStep (args : TrainArgs) (trigger : Bool) (m : Module)
    (grads : Option AnyState) : Except String (Module × Option AnyState) :=
  if args.filter = "none" then .ok (m, grads)
  else if args.filter = "ma" then
    match grads with
    | none => liftFilterResult .ma
        (gradfilter_ma m none args.window_size args.lamb "mean" true trigger)
    | some (.ma st) => liftFilterResult .ma
        (gradfilter_ma m (some st) args.window_size args.lamb "mean" true trigger)
    | some _ => .error "state kind mismatch"
  else if args.filter = "ema" then
    match grads with
    | none => liftFilterResult .ema
        (gradfilter_ema m none args.alpha args.lamb trigger)
    | some (.ema st) => liftFilterResult .ema
        (gradfilter_ema m (some st) args.alpha args.lamb trigger)
    | some _ => .error "state kind mismatch"
  else if args.filter = "smoother" then
    match grads with
    | none =>
      let r := smoother m none args.beta args.pp
      .ok (r.1, some (.smoother r.2))
    | some (.smoother st) =>
      let r := smoother m (some st) args.beta args.pp
      .ok (r.1, some (.smoother r.2))
    | some _ => .error "state kind mismatch"
  else if args.filter = "kalman" then
    match grads with
    | none => liftFilterResult .kalman
        (gradfilter_kalman m none args.process_noise args.measurement_noise args.lamb)
    | some (.kalman st) => liftFilterResult .kalman
        (gradfilter_kalman m (some st) args.process_noise args.measurement_noise args.lamb)
    | some _ => .error "state kind mismatch"
  else .error ("Invalid update filter type `" ++ args.filter ++ "`")

/-! ## Infrastructure lemmas -/

theorem consOk_eq_ok {σ : Type} {e : String × Param} {r : FilterResult σ}
    {m' : Module} {st' : σ} :
    consOk e r = .ok (m', st') ↔ ∃ m₁, m' = e :: m₁ ∧ r = .ok (m₁, st') := by
  cases r with
  | ok v =>
    obtain ⟨m₁, st₁⟩ := v
    simp only [consOk, Except.ok.injEq, Prod.mk.injEq]
    aesop
  | error v =>
    obtain ⟨msg, m₁, st₁⟩ := v
    simp [consOk]

theorem consOk_eq_error {σ : Type} {e : String × Param} {r : FilterResult σ}
    {msg : String} {m' : Module} {st' : σ} :
    consOk e r = .error (msg, m', st') ↔
      ∃ m₁, m' = e :: m₁ ∧ r = .error (msg, m₁, st') := by
  cases r with
  | ok v =>
    obtain ⟨m₁, st₁⟩ := v
    simp [consOk]
  | error v =>
    obtain ⟨msg₁, m₁, st₁⟩ := v
    simp only [consOk, Except.error.injEq, Prod.mk.injEq]
    aesop

theorem lookupKey_updateKey_ne {β : Type} {a b : String} (v : β) (l : List (String × β))
    (h : a ≠ b) : lookupKey a (updateKey b v l) = lookupKey a l := by
  induction l with
  | nil => rfl
  | cons hd tl ih =>
    obtain ⟨k, w⟩ := hd
    by_cases hk : k = b
    · subst hk
      simp only [updateKey, if_pos rfl, lookupKey]
      rw [if_neg (fun hba => h hba.symm), if_neg (fun hba => h hba.symm)]
    · simp only [updateKey, if_neg hk, lookupKey]
      by_cases hka : k = a
      · rw [if_pos hka, if_pos hka]
      · rw [if_neg hka, if_neg hka]; exact ih

theorem goodNames_nil : goodNames [] = [] := rfl

theorem goodNames_cons {n : String} {p : Param} {m : Module} :
    goodNames ((n, p) :: m) =
      if (p.requiresGrad && p.grad.isSome) = true then n :: goodNames m
      else goodNames m := by
  simp only [goodNames, List.filter_cons]
  by_cases h : (p.requiresGrad && p.grad.isSome) = true
  · rw [if_pos h, if_pos h, List.map_cons]
  · rw [if_neg h, if_neg h]

theorem namesOf_cons {n : String} {p : Param} {m : Module} :
    namesOf ((n, p) :: m) = n :: namesOf m := rfl

theorem initState_nil {α : Type} (f : Param → α) : initState f [] = [] := rfl

theorem initState_cons {α : Type} (f : Param → α) {n : String} {p : Param} {m : Module} :
    initState f ((n, p) :: m) =
      if (p.requiresGrad && p.grad.isSome) = true then (n, f p) :: initState f m
      else initState f m := by
  simp only [initState, List.filterMap_cons]
  by_cases h : (p.requiresGrad && p.grad.isSome) = true
  · rw [if_pos h, if_pos h]
  · rw [if_neg h, if_neg h]

theorem mem_goodNames {m : Module} {n : String} :
    n ∈ goodNames m ↔ ∃ p, (n, p) ∈ m ∧ (p.requiresGrad && p.grad.isSome) = true := by
  simp only [goodNames, List.mem_map, List.mem_filter]
  constructor
  · rintro ⟨⟨n', p⟩, ⟨hm, hg⟩, rfl⟩
    exact ⟨p, hm, hg⟩
  · rintro ⟨p, hm, hg⟩
    exact ⟨(n, p), ⟨hm, hg⟩, rfl⟩

theorem param_eq_of_nodup {m : Module} {n : String} {p q : Param}
    (hnd : (namesOf m).Nodup) (hp : (n, p) ∈ m) (hq : (n, q) ∈ m) : p = q := by
  induction m with
  | nil => simp at hp
  | cons hd tl ih =>
    obtain ⟨k, w⟩ := hd
    rw [namesOf_cons, List.nodup_cons] at hnd
    rcases List.mem_cons.mp hp with hp1 | hp1 <;>
      rcases List.mem_cons.mp hq with hq1 | hq1
    · rw [Prod.mk.injEq] at hp1 hq1
      rw [hp1.2, hq1.2]
    · exfalso
      apply hnd.1
      rw [Prod.mk.injEq] at hp1
      rw [← hp1.1]
      exact List.mem_map.mpr ⟨(n, q), hq1, rfl⟩
    · exfalso
      apply hnd.1
      rw [Prod.mk.injEq] at hq1
      rw [← hq1.1]
      exact List.mem_map.mpr ⟨(n, p), hp1, rfl⟩
    · exact ih hnd.2 hp1 hq1

theorem not_mem_goodNames_of_bad {m : Module} {n : String} {p : Param}
    (hnd : (namesOf m).Nodup) (hm : (n, p) ∈ m)
    (hbad : (p.requiresGrad && p.grad.isSome) = false) : n ∉ goodNames m := by
  intro hg
  obtain ⟨q, hq, hgood⟩ := mem_goodNames.mp hg
  rw [param_eq_of_nodup hnd hm hq, hgood] at hbad
  exact Bool.noConfusion hbad

theorem lookupKey_initState_of_not_good {α : Type} {f : Param → α} {m : Module}
    {n : String} (h : n ∉ goodNames m) : lookupKey n (initState f m) = none := by
  induction m with
  | nil => rfl
  | cons hd tl ih =>
    obtain ⟨k, p⟩ := hd
    rw [goodNames_cons] at h
    rw [initState_cons]
    by_cases hg : (p.requiresGrad && p.grad.isSome) = true
    · rw [if_pos hg] at h ⊢
      rw [List.mem_cons, not_or] at h
      simp only [lookupKey]
      rw [if_neg (fun hkn => h.1 hkn.symm)]
      exact ih h.2
    · rw [if_neg hg] at h ⊢
      exact ih h

theorem lookupKey_initState_of_good {α : Type} {f : Param → α} {m : Module}
    {n : String} {p : Param} (hnd : (namesOf m).Nodup) (hm : (n, p) ∈ m)
    (hgood : (p.requiresGrad && p.grad.isSome) = true) :
    lookupKey n (initState f m) = some (f p) := by
  induction m with
  | nil => simp at hm
  | cons hd tl ih =>
    obtain ⟨k, q⟩ := hd
    rw [namesOf_cons, List.nodup_cons] at hnd
    rw [initState_cons]
    rcases List.mem_cons.mp hm with hm1 | hm1
    · rw [Prod.mk.injEq] at hm1
      obtain ⟨rfl, rfl⟩ := hm1
      rw [if_pos hgood]
      simp [lookupKey]
    · have hkn : k ≠ n := by
        intro hkn
        subst hkn
        exact hnd.1 (List.mem_map.mpr ⟨(k, p), hm1, rfl⟩)
      by_cases hg : (q.requiresGrad && q.grad.isSome) = true
      · rw [if_pos hg]
        simp only [lookupKey]
        rw [if_neg hkn]
        exact ih hnd.2 hm1
      · rw [if_neg hg]
        exact ih hnd.2 hm1

theorem lookupKey_updateKey_self {β : Type} {a : String} (v : β) {l : List (String × β)}
    {w : β} (h : lookupKey a l = some w) :
    lookupKey a (updateKey a v l) = some v := by
  induction l with
  | nil => simp [lookupKey] at h
  | cons hd tl ih =>
    obtain ⟨k, u⟩ := hd
    by_cases hk : k = a
    · subst hk
      simp [updateKey, lookupKey]
    · simp only [lookupKey, if_neg hk] at h
      simp only [updateKey, if_neg hk, lookupKey, if_neg hk]
      exact ih h

/-! ### MovingAverage loop lemmas -/

theorem maLoop_nil_eq {W : Nat} {lamb : ℚ} {ft : String} {wu tg : Bool} {st : MaState} :
    maLoop W lamb ft wu tg [] st = .ok ([], st) := rfl

theorem maLoop_ok_lookup_of_not_good {W : Nat} {lamb : ℚ} {ft : String} {wu tg : Bool} :
    ∀ {m : Module} {st st' : MaState} {m' : Module},
      maLoop W lamb ft wu tg m st = .ok (m', st') →
      ∀ k, k ∉ goodNames m → lookupKey k st' = lookupKey k st := by
  intro m
  induction m with
  | nil =>
    intro st st' m' h k _
    rw [maLoop_nil_eq] at h
    obtain ⟨-, h2⟩ := Prod.mk.injEq .. ▸ Except.ok.inj h
    rw [h2]
  | cons hd tl ih =>
    obtain ⟨n, p⟩ := hd
    intro st st' m' h k hk
    rw [goodNames_cons] at hk
    simp only [maLoop] at h
    split at h
    next hq =>
      rw [if_pos hq, List.mem_cons, not_or] at hk
      have hkn : k ≠ n := hk.1
      split at h
      next hl => simp at h
      next d hl =>
        split at h
        next hc =>
          split at h
          next hagg => simp at h
          next avg hagg =>
            obtain ⟨m₁, rfl, hrec⟩ := consOk_eq_ok.mp h
            rw [ih hrec k hk.2, lookupKey_updateKey_ne _ _ hkn]
        next hc =>
          obtain ⟨m₁, rfl, hrec⟩ := consOk_eq_ok.mp h
          rw [ih hrec k hk.2, lookupKey_updateKey_ne _ _ hkn]
    next hq =>
      rw [if_neg hq] at hk
      obtain ⟨m₁, rfl, hrec⟩ := consOk_eq_ok.mp h
      exact ih hrec k hk

theorem maLoop_ok_get_of_bad {W : Nat} {lamb : ℚ} {ft : String} {wu tg : Bool} :
    ∀ {m : Module} {st st' : MaState} {m' : Module},
      maLoop W lamb ft wu tg m st = .ok (m', st') →
      ∀ i n p, m.get? i = some (n, p) → (p.requiresGrad && p.grad.isSome) = false →
        m'.get? i = some (n, p) := by
  intro m
  induction m with
  | nil =>
    intro st st' m' h i n p hi _
    simp at hi
  | cons hd tl ih =>
    obtain ⟨n₀, p₀⟩ := hd
    intro st st' m' h i n p hi hbad
    simp only [maLoop] at h
    split at h
    next hq =>
      split at h
      next hl => simp at h
      next d hl =>
        split at h
        next hc =>
          split at h
          next hagg => simp at h
          next avg hagg =>
            obtain ⟨m₁, rfl, hrec⟩ := consOk_eq_ok.mp h
            cases i with
            | zero =>
              rw [List.get?_cons_zero] at hi
              obtain ⟨h1, h2⟩ := Prod.mk.injEq .. ▸ Option.some.inj hi
              rw [← h2, hq] at hbad
              exact Bool.noConfusion hbad
            | succ j =>
              rw [List.get?_cons_succ] at hi ⊢
              exact ih hrec j n p hi hbad
        next hc =>
          obtain ⟨m₁, rfl, hrec⟩ := consOk_eq_ok.mp h
          cases i with
          | zero => exact hi
          | succ j =>
            rw [List.get?_cons_succ] at hi ⊢
            exact ih hrec j n p hi hbad
    next hq =>
      obtain ⟨m₁, rfl, hrec⟩ := consOk_eq_ok.mp h
      cases i with
      | zero => exact hi
      | succ j =>
        rw [List.get?_cons_succ] at hi ⊢
        exact ih hrec j n p hi hbad

theorem maLoop_zero_lamb_gradsOf {W : Nat} {ft : String} {wu tg : Bool} :
    ∀ {m : Module} {st st' : MaState} {m' : Module},
      maLoop W 0 ft wu tg m st = .ok (m', st') → gradsOf m' = gradsOf m := by
  intro m
  induction m with
  | nil =>
    intro st st' m' h
    rw [maLoop_nil_eq] at h
    obtain ⟨h1, -⟩ := Prod.mk.injEq .. ▸ Except.ok.inj h
    rw [← h1]
  | cons hd tl ih =>
    obtain ⟨n, p⟩ := hd
    intro st st' m' h
    simp only [maLoop] at h
    split at h
    next hq =>
      split at h
      next hl => simp at h
      next d hl =>
        split at h
        next hc =>
          split at h
          next hagg => simp at h
          next avg hagg =>
            obtain ⟨m₁, rfl, hrec⟩ := consOk_eq_ok.mp h
            have hg : p.grad = some (p.grad.getD 0 + avg * 0) := by
              obtain ⟨g, hg⟩ := Option.isSome_iff_exists.mp (Bool.and_elim_right hq)
              rw [hg]
              norm_num
            have htl := ih hrec
            simp only [gradsOf, List.map_cons] at htl ⊢
            rw [htl, ← hg]
        next hc =>
          obtain ⟨m₁, rfl, hrec⟩ := consOk_eq_ok.mp h
          have htl := ih hrec
          simp only [gradsOf, List.map_cons] at htl ⊢
          rw [htl]
    next hq =>
      obtain ⟨m₁, rfl, hrec⟩ := consOk_eq_ok.mp h
      have htl := ih hrec
      simp only [gradsOf, List.map_cons] at htl ⊢
      rw [htl]

/-! ### Exponential loop lemmas -/

theorem goodNames_subset_namesOf {m : Module} {k : String} (h : k ∈ goodNames m) :
    k ∈ namesOf m := by
  obtain ⟨p, hp, -⟩ := mem_goodNames.mp h
  exact List.mem_map.mpr ⟨(k, p), hp, rfl⟩

theorem emaLoop_nil_eq {alpha lamb : ℚ} {tg : Bool} {st : EmaState} :
    emaLoop alpha lamb tg [] st = .ok ([], st) := rfl

theorem emaLoop_trigger_eq {alpha lamb : ℚ} :
    ∀ {m : Module} {st : EmaState}, emaLoop alpha lamb true m st = .ok (m, st) := by
  intro m
  induction m with
  | nil => intro st; rfl
  | cons hd tl ih =>
    obtain ⟨n, p⟩ := hd
    intro st
    simp only [emaLoop]
    by_cases hq : (p.requiresGrad && p.grad.isSome) = true
    · rw [if_pos hq]
      simp only [Bool.not_true, Bool.false_eq_true, if_false]
      rw [ih, consOk]
    · rw [if_neg hq, ih, consOk]

theorem emaLoop_ok_lookup_of_not_good {alpha lamb : ℚ} {tg : Bool} :
    ∀ {m : Module} {st st' : EmaState} {m' : Module},
      emaLoop alpha lamb tg m st = .ok (m', st') →
      ∀ k, k ∉ goodNames m → lookupKey k st' = lookupKey k st := by
  intro m
  induction m with
  | nil =>
    intro st st' m' h k _
    rw [emaLoop_nil_eq] at h
    obtain ⟨-, h2⟩ := Prod.mk.injEq .. ▸ Except.ok.inj h
    rw [h2]
  | cons hd tl ih =>
    obtain ⟨n, p⟩ := hd
    intro st st' m' h k hk
    rw [goodNames_cons] at hk
    simp only [emaLoop] at h
    split at h
    next hq =>
      rw [if_pos hq, List.mem_cons, not_or] at hk
      have hkn : k ≠ n := hk.1
      split at h
      next =>
        split at h
        next hl => simp at h
        next acc hl =>
          obtain ⟨m₁, rfl, hrec⟩ := consOk_eq_ok.mp h
          rw [ih hrec k hk.2, lookupKey_updateKey_ne _ _ hkn]
      next =>
        obtain ⟨m₁, rfl, hrec⟩ := consOk_eq_ok.mp h
        exact ih hrec k hk.2
    next hq =>
      rw [if_neg hq] at hk
      obtain ⟨m₁, rfl, hrec⟩ := consOk_eq_ok.mp h
      exact ih hrec k hk

theorem emaLoop_ok_get_of_bad {alpha lamb : ℚ} {tg : Bool} :
    ∀ {m : Module} {st st' : EmaState} {m' : Module},
      emaLoop alpha lamb tg m st = .ok (m', st') →
      ∀ i n p, m.get? i = some (n, p) → (p.requiresGrad && p.grad.isSome) = false →
        m'.get? i = some (n, p) := by
  intro m
  induction m with
  | nil =>
    intro st st' m' h i n p hi _
    simp at hi
  | cons hd tl ih =>
    obtain ⟨n₀, p₀⟩ := hd
    intro st st' m' h i n p hi hbad
    simp only [emaLoop] at h
    split at h
    next hq =>
      split at h
      next =>
        split at h
        next hl => simp at h
        next acc hl =>
          obtain ⟨m₁, rfl, hrec⟩ := consOk_eq_ok.mp h
          cases i with
          | zero =>
            rw [List.get?_cons_zero] at hi
            obtain ⟨h1, h2⟩ := Prod.mk.injEq .. ▸ Option.some.inj hi
            rw [← h2, hq] at hbad
            exact Bool.noConfusion hbad
          | succ j =>
            rw [List.get?_cons_succ] at hi ⊢
            exact ih hrec j n p hi hbad
      next =>
        obtain ⟨m₁, rfl, hrec⟩ := consOk_eq_ok.mp h
        cases i with
        | zero => exact hi
        | succ j =>
          rw [List.get?_cons_succ] at hi ⊢
          exact ih hrec j n p hi hbad
    next hq =>
      obtain ⟨m₁, rfl, hrec⟩ := consOk_eq_ok.mp h
      cases i with
      | zero => exact hi
      | succ j =>
        rw [List.get?_cons_succ] at hi ⊢
        exact ih hrec j n p hi hbad

theorem emaLoop_zero_lamb_gradsOf {alpha : ℚ} {tg : Bool} :
    ∀ {m : Module} {st st' : EmaState} {m' : Module},
      emaLoop alpha 0 tg m st = .ok (m', st') → gradsOf m' = gradsOf m := by
  intro m
  induction m with
  | nil =>
    intro st st' m' h
    rw [emaLoop_nil_eq] at h
    obtain ⟨h1, -⟩ := Prod.mk.injEq .. ▸ Except.ok.inj h
    rw [← h1]
  | cons hd tl ih =>
    obtain ⟨n, p⟩ := hd
    intro st st' m' h
    simp only [emaLoop] at h
    split at h
    next hq =>
      split at h
      next =>
        split at h
        next hl => simp at h
        next acc hl =>
          obtain ⟨m₁, rfl, hrec⟩ := consOk_eq_ok.mp h
          have hg : p.grad =
              some ((p.grad.getD 0 + (acc * alpha + p.grad.getD 0 * (1 - alpha)) * 0) / (1 + 0)) := by
            obtain ⟨g, hg⟩ := Option.isSome_iff_exists.mp (Bool.and_elim_right hq)
            rw [hg]
            norm_num
          have htl := ih hrec
          simp only [gradsOf, List.map_cons] at htl ⊢
          rw [htl, ← hg]
      next =>
        obtain ⟨m₁, rfl, hrec⟩ := consOk_eq_ok.mp h
        have htl := ih hrec
        simp only [gradsOf, List.map_cons] at htl ⊢
        rw [htl]
    next hq =>
      obtain ⟨m₁, rfl, hrec⟩ := consOk_eq_ok.mp h
      have htl := ih hrec
      simp only [gradsOf, List.map_cons] at htl ⊢
      rw [htl]

theorem emaLoop_seed {alpha lamb : ℚ} :
    ∀ {m : Module} {st st' : EmaState} {m' : Module},
      (namesOf m).Nodup →
      emaLoop alpha lamb false m st = .ok (m', st') →
      ∀ n p, lookupKey n m = some p → (p.requiresGrad && p.grad.isSome) = true →
        lookupKey n st = some (p.grad.getD 0) →
        lookupKey n st' = some (p.grad.getD 0) := by
  intro m
  induction m with
  | nil =>
    intro st st' m' _ h n p hm _ _
    simp [lookupKey] at hm
  | cons hd tl ih =>
    obtain ⟨n₀, p₀⟩ := hd
    intro st st' m' hnd h n p hm hgood hst
    rw [namesOf_cons, List.nodup_cons] at hnd
    simp only [emaLoop] at h
    by_cases hn : n₀ = n
    · subst hn
      simp only [lookupKey, if_pos rfl] at hm
      obtain rfl := Option.some.inj hm
      rw [if_pos hgood] at h
      simp only [Bool.not_false, if_true] at h
      rw [hst] at h
      obtain ⟨m₁, rfl, hrec⟩ := consOk_eq_ok.mp h
      have hg : p₀.grad.getD 0 * alpha + p₀.grad.getD 0 * (1 - alpha) = p₀.grad.getD 0 := by
        ring
      have hupd : lookupKey n₀ (updateKey n₀
          (p₀.grad.getD 0 * alpha + p₀.grad.getD 0 * (1 - alpha)) st)
          = some (p₀.grad.getD 0) := by
        rw [lookupKey_updateKey_self _ hst, hg]
      have hnot : n₀ ∉ goodNames tl := fun hmem => hnd.1 (goodNames_subset_namesOf hmem)
      rw [emaLoop_ok_lookup_of_not_good hrec n₀ hnot, hupd]
    · simp only [lookupKey, if_neg hn] at hm
      split at h
      next hq =>
        simp only [Bool.not_false, if_true] at h
        split at h
        next hl => simp at h
        next acc hl =>
          obtain ⟨m₁, rfl, hrec⟩ := consOk_eq_ok.mp h
          have hst1 : lookupKey n (updateKey n₀ (acc * alpha + p₀.grad.getD 0 * (1 - alpha)) st)
              = some (p.grad.getD 0) := by
            rw [lookupKey_updateKey_ne _ _ (fun hcl => hn hcl.symm), hst]
          exact ih hnd.2 hrec n p hm hgood hst1
      next hq =>
        obtain ⟨m₁, rfl, hrec⟩ := consOk_eq_ok.mp h
        exact ih hnd.2 hrec n p hm hgood hst

/-! ### Generic assoc-list membership lemmas -/

theorem lookupKey_eq_none_of_not_mem {β : Type} {l : List (String × β)} {n : String}
    (h : n ∉ l.map Prod.fst) : lookupKey n l = none := by
  induction l with
  | nil => rfl
  | cons hd tl ih =>
    obtain ⟨k, v⟩ := hd
    rw [List.map_cons, List.mem_cons, not_or] at h
    simp only [lookupKey]
    rw [if_neg (fun hk => h.1 hk.symm)]
    exact ih h.2

theorem mem_keys_of_lookupKey {β : Type} {l : List (String × β)} {n : String} {v : β}
    (h : lookupKey n l = some v) : n ∈ l.map Prod.fst := by
  induction l with
  | nil => simp [lookupKey] at h
  | cons hd tl ih =>
    obtain ⟨k, w⟩ := hd
    rw [List.map_cons, List.mem_cons]
    by_cases hk : k = n
    · exact Or.inl hk.symm
    · simp only [lookupKey, if_neg hk] at h
      exact Or.inr (ih h)

theorem lookupKey_of_mem {β : Type} {l : List (String × β)} {n : String} {v : β}
    (hnd : (l.map Prod.fst).Nodup) (h : (n, v) ∈ l) : lookupKey n l = some v := by
  induction l with
  | nil => simp at h
  | cons hd tl ih =>
    obtain ⟨k, w⟩ := hd
    rw [List.map_cons, List.nodup_cons] at hnd
    rcases List.mem_cons.mp h with h1 | h1
    · obtain ⟨h2, h3⟩ := Prod.mk.injEq .. ▸ h1
      simp only [lookupKey]
      rw [if_pos h2.symm, h3]
    · have hk : k ≠ n := by
        intro hk
        subst hk
        exact hnd.1 (List.mem_map.mpr ⟨(k, v), h1, rfl⟩)
      simp only [lookupKey, if_neg hk]
      exact ih hnd.2 h1

/-! ### Kalman loop lemmas -/

theorem kalmanLoop_nil_eq {pn mn lamb : ℚ} {st : KalmanState} :
    kalmanLoop pn mn lamb [] st = .ok ([], st) := rfl

theorem kalmanLoop_ok_lookup_of_not_good {pn mn lamb : ℚ} :
    ∀ {m : Module} {st st' : KalmanState} {m' : Module},
      kalmanLoop pn mn lamb m st = .ok (m', st') →
      ∀ k, k ∉ goodNames m → lookupKey k st' = lookupKey k st := by
  intro m
  induction m with
  | nil =>
    intro st st' m' h k _
    rw [kalmanLoop_nil_eq] at h
    obtain ⟨-, h2⟩ := Prod.mk.injEq .. ▸ Except.ok.inj h
    rw [h2]
  | cons hd tl ih =>
    obtain ⟨n, p⟩ := hd
    intro st st' m' h k hk
    rw [goodNames_cons] at hk
    simp only [kalmanLoop] at h
    split at h
    next hq =>
      rw [if_pos hq, List.mem_cons, not_or] at hk
      have hkn : k ≠ n := hk.1
      split at h
      next hl => simp at h
      next s hl =>
        obtain ⟨m₁, rfl, hrec⟩ := consOk_eq_ok.mp h
        rw [ih hrec k hk.2, lookupKey_updateKey_ne _ _ hkn]
    next hq =>
      rw [if_neg hq] at hk
      obtain ⟨m₁, rfl, hrec⟩ := consOk_eq_ok.mp h
      exact ih hrec k hk

theorem kalmanLoop_ok_get_of_bad {pn mn lamb : ℚ} :
    ∀ {m : Module} {st st' : KalmanState} {m' : Module},
      kalmanLoop pn mn lamb m st = .ok (m', st') →
      ∀ i n p, m.get? i = some (n, p) → (p.requiresGrad && p.grad.isSome) = false →
        m'.get? i = some (n, p) := by
  intro m
  induction m with
  | nil =>
    intro st st' m' h i n p hi _
    simp at hi
  | cons hd tl ih =>
    obtain ⟨n₀, p₀⟩ := hd
    intro st st' m' h i n p hi hbad
    simp only [kalmanLoop] at h
    split at h
    next hq =>
      split at h
      next hl => simp at h
      next s hl =>
        obtain ⟨m₁, rfl, hrec⟩ := consOk_eq_ok.mp h
        cases i with
        | zero =>
          rw [List.get?_cons_zero] at hi
          obtain ⟨h1, h2⟩ := Prod.mk.injEq .. ▸ Option.some.inj hi
          rw [← h2, hq] at hbad
          exact Bool.noConfusion hbad
        | succ j =>
          rw [List.get?_cons_succ] at hi ⊢
          exact ih hrec j n p hi hbad
    next hq =>
      obtain ⟨m₁, rfl, hrec⟩ := consOk_eq_ok.mp h
      cases i with
      | zero => exact hi
      | succ j =>
        rw [List.get?_cons_succ] at hi ⊢
        exact ih hrec j n p hi hbad

theorem kalmanLoop_zero_lamb_gradsOf {pn mn : ℚ} :
    ∀ {m : Module} {st st' : KalmanState} {m' : Module},
      kalmanLoop pn mn 0 m st = .ok (m', st') → gradsOf m' = gradsOf m := by
  intro m
  induction m with
  | nil =>
    intro st st' m' h
    rw [kalmanLoop_nil_eq] at h
    obtain ⟨h1, -⟩ := Prod.mk.injEq .. ▸ Except.ok.inj h
    rw [← h1]
  | cons hd tl ih =>
    obtain ⟨n, p⟩ := hd
    intro st st' m' h
    simp only [kalmanLoop] at h
    split at h
    next hq =>
      split at h
      next hl => simp at h
      next s hl =>
        obtain ⟨m₁, rfl, hrec⟩ := consOk_eq_ok.mp h
        have hg : p.grad = some (p.grad.getD 0 +
            (kalmanStep pn mn (p.grad.getD 0) s).x * 0) := by
          obtain ⟨g, hg⟩ := Option.isSome_iff_exists.mp (Bool.and_elim_right hq)
          rw [hg]
          norm_num
        have htl := ih hrec
        simp only [gradsOf, List.map_cons] at htl ⊢
        rw [htl, ← hg]
    next hq =>
      obtain ⟨m₁, rfl, hrec⟩ := consOk_eq_ok.mp h
      have htl := ih hrec
      simp only [gradsOf, List.map_cons] at htl ⊢
      rw [htl]

/-! ### Smoother loop lemmas -/

theorem smootherLoop_fst_eq {beta pp : ℚ} :
    ∀ {m : Module} {z : List (String × ℚ)},
      (namesOf m).Nodup →
      (∀ n p, lookupKey n m = some p → (p.requiresGrad && p.grad.isSome) = true →
        lookupKey n z = some p.data) →
      (smootherLoop beta pp m z).1 = m := by
  intro m
  induction m with
  | nil => intro z _ _; rfl
  | cons hd tl ih =>
    obtain ⟨n₀, p₀⟩ := hd
    intro z hnd hinv
    rw [namesOf_cons, List.nodup_cons] at hnd
    have htl : ∀ n p, lookupKey n tl = some p →
        (p.requiresGrad && p.grad.isSome) = true → lookupKey n z = some p.data := by
      intro n p hm hgood
      have hn : n₀ ≠ n := by
        intro he
        subst he
        exact hnd.1 (mem_keys_of_lookupKey hm)
      have : lookupKey n ((n₀, p₀) :: tl) = some p := by
        simp only [lookupKey, if_neg hn]
        exact hm
      exact hinv n p this hgood
    simp only [smootherLoop]
    by_cases hq : (p₀.requiresGrad && p₀.grad.isSome) = true
    · rw [if_pos hq]
      have hz : lookupKey n₀ z = some p₀.data := by
        apply hinv n₀ p₀ _ hq
        simp [lookupKey]
      rw [hz]
      have htl1 : ∀ n p, lookupKey n tl = some p →
          (p.requiresGrad && p.grad.isSome) = true →
          lookupKey n (updateKey n₀ (p₀.data + beta * (p₀.data - p₀.data)) z)
            = some p.data := by
        intro n p hm hgood
        have hn : n₀ ≠ n := by
          intro he
          subst he
          exact hnd.1 (mem_keys_of_lookupKey hm)
        rw [lookupKey_updateKey_ne _ _ (fun he => hn he.symm)]
        exact htl n p hm hgood
      have hrec := ih hnd.2 htl1
      have hp1 : ({ p₀ with grad := some (p₀.grad.getD 0 -
          pp * (p₀.data - (p₀.data + beta * (p₀.data - p₀.data)))) } : Param) = p₀ := by
        obtain ⟨g, hg⟩ := Option.isSome_iff_exists.mp (Bool.and_elim_right hq)
        have hval : p₀.grad.getD 0 - pp * (p₀.data - (p₀.data + beta * (p₀.data - p₀.data)))
            = p₀.grad.getD 0 := by ring
        rw [hval, hg, Option.getD_some, ← hg]
      split
      next h0 => simp at h0
      next zn hzn =>
        obtain rfl := Option.some.inj hzn
        show (n₀, ({ p₀ with grad := some (p₀.grad.getD 0 -
            pp * (p₀.data - (p₀.data + beta * (p₀.data - p₀.data)))) } : Param)) ::
            (smootherLoop beta pp tl
              (updateKey n₀ (p₀.data + beta * (p₀.data - p₀.data)) z)).1
          = (n₀, p₀) :: tl
        rw [hrec, hp1]
    · rw [if_neg hq]
      rw [ih hnd.2 htl]

theorem mem_of_lookupKey {β : Type} {l : List (String × β)} {n : String} {v : β}
    (h : lookupKey n l = some v) : (n, v) ∈ l := by
  induction l with
  | nil => simp [lookupKey] at h
  | cons hd tl ih =>
    obtain ⟨k, w⟩ := hd
    by_cases hk : k = n
    · subst hk
      simp only [lookupKey, if_pos rfl] at h
      obtain rfl := Option.some.inj h
      exact List.mem_cons_self ..
    · simp only [lookupKey, if_neg hk] at h
      exact List.mem_cons_of_mem _ (ih h)

theorem maLoop_true_true_fst {W : Nat} {lamb : ℚ} {ft : String} :
    ∀ {m : Module} {st st' : MaState} {m' : Module},
      maLoop W lamb ft true true m st = .ok (m', st') → m' = m := by
  intro m
  induction m with
  | nil =>
    intro st st' m' h
    rw [maLoop_nil_eq] at h
    obtain ⟨h1, -⟩ := Prod.mk.injEq .. ▸ Except.ok.inj h
    rw [← h1]
  | cons hd tl ih =>
    obtain ⟨n, p⟩ := hd
    intro st st' m' h
    simp only [maLoop] at h
    split at h
    next hq =>
      split at h
      next hl => simp at h
      next d hl =>
        split at h
        next hc => simp at hc
        next hc =>
          obtain ⟨m₁, rfl, hrec⟩ := consOk_eq_ok.mp h
          rw [ih hrec]
    next hq =>
      obtain ⟨m₁, rfl, hrec⟩ := consOk_eq_ok.mp h
      rw [ih hrec]

theorem maLoop_true_true_push {W : Nat} {lamb : ℚ} {ft : String} :
    ∀ {m : Module} {st st' : MaState} {m' : Module},
      (namesOf m).Nodup →
      maLoop W lamb ft true true m st = .ok (m', st') →
      ∀ n p d, lookupKey n m = some p → (p.requiresGrad && p.grad.isSome) = true →
        lookupKey n st = some d →
        lookupKey n st' = some (d.push (p.grad.getD 0)) := by
  intro m
  induction m with
  | nil =>
    intro st st' m' _ h n p d hm _ _
    simp [lookupKey] at hm
  | cons hd tl ih =>
    obtain ⟨n₀, p₀⟩ := hd
    intro st st' m' hnd h n p d hm hgood hst
    rw [namesOf_cons, List.nodup_cons] at hnd
    simp only [maLoop] at h
    by_cases hn : n₀ = n
    · subst hn
      simp only [lookupKey, if_pos rfl] at hm
      obtain rfl := Option.some.inj hm
      rw [if_pos hgood, hst] at h
      split at h
      next hl => simp at hl
      next d1 hl =>
        obtain rfl := Option.some.inj hl
        split at h
        next hc => simp at hc
        next hc =>
          obtain ⟨m₁, rfl, hrec⟩ := consOk_eq_ok.mp h
          have hupd : lookupKey n₀ (updateKey n₀ (d.push (p₀.grad.getD 0)) st)
              = some (d.push (p₀.grad.getD 0)) := lookupKey_updateKey_self _ hst
          have hnot : n₀ ∉ goodNames tl := fun hmem => hnd.1 (goodNames_subset_namesOf hmem)
          rw [maLoop_ok_lookup_of_not_good hrec n₀ hnot, hupd]
    · simp only [lookupKey, if_neg hn] at hm
      split at h
      next hq =>
        split at h
        next hl => simp at h
        next d₀ hl =>
          split at h
          next hc => simp at hc
          next hc =>
            obtain ⟨m₁, rfl, hrec⟩ := consOk_eq_ok.mp h
            have hst1 : lookupKey n (updateKey n₀ (d₀.push (p₀.grad.getD 0)) st)
                = some d := by
              rw [lookupKey_updateKey_ne _ _ (fun he => hn he.symm), hst]
            exact ih hnd.2 hrec n p d hm hgood hst1
      next hq =>
        obtain ⟨m₁, rfl, hrec⟩ := consOk_eq_ok.mp h
        exact ih hnd.2 hrec n p d hm hgood hst

theorem smootherLoop_zero_pp_gradsOf {beta : ℚ} :
    ∀ {m : Module} {z : List (String × ℚ)},
      gradsOf (smootherLoop beta 0 m z).1 = gradsOf m := by
  intro m
  induction m with
  | nil => intro z; rfl
  | cons hd tl ih =>
    obtain ⟨n, p⟩ := hd
    intro z
    simp only [smootherLoop]
    split
    next hq =>
      split
      next =>
        have htl : gradsOf (smootherLoop beta 0 tl z).1 = gradsOf tl := ih
        simp only [gradsOf, List.map_cons] at htl ⊢
        rw [htl]
      next zn hzn =>
        have hg : p.grad = some (p.grad.getD 0 - 0 * (p.data - (zn + beta * (p.data - zn)))) := by
          obtain ⟨g, hgg⟩ := Option.isSome_iff_exists.mp (Bool.and_elim_right hq)
          rw [hgg]
          norm_num
        have htl : gradsOf (smootherLoop beta 0 tl
            (updateKey n (zn + beta * (p.data - zn)) z)).1 = gradsOf tl := ih
        simp only [gradsOf, List.map_cons] at htl ⊢
        rw [htl, ← hg]
    next hq =>
      have htl : gradsOf (smootherLoop beta 0 tl z).1 = gradsOf tl := ih
      simp only [gradsOf, List.map_cons] at htl ⊢
      rw [htl]

/-! ## Claim theorems -/

/-- C1: for every filter kind, a zero gain makes the call the identity on
gradients: `gradfilter_ma` with `lamb = 0`, `gradfilter_ema` with
`lamb = 0`, `gradfilter_kalman` with `lamb = 0` and `smoother` with
`pp = 0` each return every parameter's gradient equal to the input
gradient, for any prior state (hence after any number of prior calls). -/
theorem lamb_zero_identity :
    (∀ (m : Module) (grads : Option MaState) (W : Nat) (ft : String) (wu tg : Bool)
        (m' : Module) (st' : MaState),
        gradfilter_ma m grads W 0 ft wu tg = .ok (m', st') → gradsOf m' = gradsOf m) ∧
    (∀ (m : Module) (grads : Option EmaState) (alpha : ℚ) (tg : Bool)
        (m' : Module) (st' : EmaState),
        gradfilter_ema m grads alpha 0 tg = .ok (m', st') → gradsOf m' = gradsOf m) ∧
    (∀ (m : Module) (grads : Option KalmanState) (pn mn : ℚ)
        (m' : Module) (st' : KalmanState),
        gradfilter_kalman m grads pn mn 0 = .ok (m', st') → gradsOf m' = gradsOf m) ∧
    (∀ (m : Module) (grads : Option SmootherState) (beta : ℚ),
        gradsOf (smoother m grads beta 0).1 = gradsOf m) := by
  refine ⟨?_, ?_, ?_, ?_⟩
  · intro m grads W ft wu tg m' st' h
    rw [gradfilter_ma] at h
    exact maLoop_zero_lamb_gradsOf h
  · intro m grads alpha tg m' st' h
    rw [gradfilter_ema] at h
    exact emaLoop_zero_lamb_gradsOf h
  · intro m grads pn mn m' st' h
    rw [gradfilter_kalman] at h
    exact kalmanLoop_zero_lamb_gradsOf h
  · intro m grads beta
    rw [smoother]
    exact smootherLoop_zero_pp_gradsOf

/-- Witness for C1: a concrete MovingAverage call with `lamb = 0` whose
output gradient equals the input gradient `3`. -/
theorem lamb_zero_identity_witness :
    gradsOf [("w", (⟨true, 0, some 3⟩ : Param))]
      = gradsOf [("w", (⟨true, 0, some 3⟩ : Param))] :=
  lamb_zero_identity.1 [("w", ⟨true, 0, some 3⟩)] none 1 "mean" true false
    [("w", ⟨true, 0, some 3⟩)] [("w", ⟨1, [3]⟩)] (by
      simp only [gradfilter_ma, maLoop, maInit, initState, lookupKey, updateKey,
        GDeque.push, GDeque.len, aggregate, consOk, Option.getD_some, Option.isSome_some,
        List.filterMap_cons, List.filterMap_nil, String.reduceEq, String.reduceAppend,
        reduceIte]
      norm_num)

/-- C3: `smoother` is in effect an identity filter: since the shadow dict
`z` is rebuilt from the current parameter values inside every call, the
shadow update leaves `z[n]` equal to the value, the push-back term
`pp*(value - z[n])` is zero, every gradient is returned unchanged (the
module is returned verbatim), and the returned state is the input state
(or, on a first call, the snapshot of the current gradients). -/
theorem smoother_identity (m : Module) (grads : Option SmootherState) (beta pp : ℚ)
    (hnd : (namesOf m).Nodup) :
    (smoother m grads beta pp).1 = m ∧
    (smoother m grads beta pp).2 = grads.getD (smootherInit m) := by
  constructor
  · rw [smoother]
    apply smootherLoop_fst_eq hnd
    intro n p hm hgood
    exact lookupKey_initState_of_good hnd (mem_of_lookupKey hm) hgood
  · rfl

/-- Witness for C3: a concrete smoother call returning module and state
unchanged. -/
theorem smoother_identity_witness :
    (smoother [("w", (⟨true, 4, some 7⟩ : Param))] none (1/3) (1/5)).1
      = [("w", (⟨true, 4, some 7⟩ : Param))] ∧
    (smoother [("w", (⟨true, 4, some 7⟩ : Param))] none (1/3) (1/5)).2
      = (none : Option SmootherState).getD
          (smootherInit [("w", (⟨true, 4, some 7⟩ : Param))]) :=
  smoother_identity [("w", ⟨true, 4, some 7⟩)] none (1/3) (1/5) (by
    simp [namesOf])

/-- C4: the concrete MovingAverage scenario: one scalar parameter fed the
gradient sequence `[1, 1, 1]` with `window_size = 2`, `lamb = 1`,
`filter_type = "mean"`, `warmup = true`, `trigger = false`; call 1 returns
gradient `1` with buffer `[1]`, call 2 returns `2` with buffer `[1, 1]`,
call 3 evicts the oldest entry and returns `2` again with buffer `[1, 1]`. -/
theorem ma_concrete_scenario :
    gradfilter_ma [("w", ⟨true, 0, some 1⟩)] none 2 1 "mean" true false
      = .ok ([("w", ⟨true, 0, some 1⟩)], [("w", ⟨2, [1]⟩)]) ∧
    gradfilter_ma [("w", ⟨true, 0, some 1⟩)] (some [("w", ⟨2, [1]⟩)]) 2 1 "mean" true false
      = .ok ([("w", ⟨true, 0, some 2⟩)], [("w", ⟨2, [1, 1]⟩)]) ∧
    gradfilter_ma [("w", ⟨true, 0, some 1⟩)] (some [("w", ⟨2, [1, 1]⟩)]) 2 1 "mean" true false
      = .ok ([("w", ⟨true, 0, some 2⟩)], [("w", ⟨2, [1, 1]⟩)]) := by
  refine ⟨?_, ?_, ?_⟩ <;>
    · simp only [gradfilter_ma, maLoop, maInit, initState, lookupKey, updateKey,
        GDeque.push, GDeque.len, aggregate, consOk, Option.getD_some, Option.isSome_some,
        List.filterMap_cons, List.filterMap_nil, String.reduceEq, String.reduceAppend,
        reduceIte]
      norm_num

/-- C5: an Exponential-filter call with `trigger = true` changes nothing:
every parameter's gradient and the whole accumulator state are returned
untouched, for any `alpha` and `lamb`. -/
theorem ema_trigger_frame :
    ∀ (m : Module) (grads : Option EmaState) (alpha lamb : ℚ),
      gradfilter_ema m grads alpha lamb true = .ok (m, grads.getD (emaInit m)) := by
  intro m grads alpha lamb
  rw [gradfilter_ema]
  exact emaLoop_trigger_eq

/-- C10: a parameter that is not trainable or has no gradient is skipped
entirely by all four filters: it is returned unchanged at its position,
the existing state under its name is not modified, and no state entry is
created for it by any initialiser. -/
theorem skip_missing_grad (m : Module) (i : Nat) (n : String) (p : Param)
    (hnd : (namesOf m).Nodup)
    (hm : m.get? i = some (n, p))
    (hbad : (p.requiresGrad && p.grad.isSome) = false) :
    (∀ (st : MaState) (W : Nat) (lamb : ℚ) (ft : String) (wu tg : Bool)
        (m' : Module) (st' : MaState),
        gradfilter_ma m (some st) W lamb ft wu tg = .ok (m', st') →
        m'.get? i = some (n, p) ∧ lookupKey n st' = lookupKey n st) ∧
    (∀ W : Nat, lookupKey n (maInit W m) = none) ∧
    (∀ (st : EmaState) (alpha lamb : ℚ) (tg : Bool) (m' : Module) (st' : EmaState),
        gradfilter_ema m (some st) alpha lamb tg = .ok (m', st') →
        m'.get? i = some (n, p) ∧ lookupKey n st' = lookupKey n st) ∧
    lookupKey n (emaInit m) = none ∧
    (∀ (st : KalmanState) (pn mn lamb : ℚ) (m' : Module) (st' : KalmanState),
        gradfilter_kalman m (some st) pn mn lamb = .ok (m', st') →
        m'.get? i = some (n, p) ∧ lookupKey n st' = lookupKey n st) ∧
    (∀ mn : ℚ, lookupKey n (kalmanInit mn m) = none) ∧
    (∀ (grads : Option SmootherState) (beta pp : ℚ),
        (smoother m grads beta pp).1.get? i = some (n, p) ∧
        (smoother m grads beta pp).2 = grads.getD (smootherInit m)) ∧
    lookupKey n (smootherInit m) = none := by
  have hmem : (n, p) ∈ m := List.get?_mem hm
  have hng : n ∉ goodNames m := not_mem_goodNames_of_bad hnd hmem hbad
  refine ⟨?_, ?_, ?_, ?_, ?_, ?_, ?_, ?_⟩
  · intro st W lamb ft wu tg m' st' h
    rw [gradfilter_ma, Option.getD_some] at h
    exact ⟨maLoop_ok_get_of_bad h i n p hm hbad,
      maLoop_ok_lookup_of_not_good h n hng⟩
  · intro W
    exact lookupKey_initState_of_not_good hng
  · intro st alpha lamb tg m' st' h
    rw [gradfilter_ema, Option.getD_some] at h
    exact ⟨emaLoop_ok_get_of_bad h i n p hm hbad,
      emaLoop_ok_lookup_of_not_good h n hng⟩
  · exact lookupKey_initState_of_not_good hng
  · intro st pn mn lamb m' st' h
    rw [gradfilter_kalman, Option.getD_some] at h
    exact ⟨kalmanLoop_ok_get_of_bad h i n p hm hbad,
      kalmanLoop_ok_lookup_of_not_good h n hng⟩
  · intro mn
    exact lookupKey_initState_of_not_good hng
  · intro grads beta pp
    constructor
    · rw [smoother]
      have hfst : (smootherLoop beta pp m (smootherZInit m)).1 = m := by
        apply smootherLoop_fst_eq hnd
        intro n₁ p₁ hm₁ hgood₁
        exact lookupKey_initState_of_good hnd (mem_of_lookupKey hm₁) hgood₁
      rw [hfst]
      exact hm
    · rfl
  · exact lookupKey_initState_of_not_good hng

/-- Witness for C10: a frozen parameter `"b"` (no gradient) is skipped by
all filters on a concrete two-parameter module. -/
theorem skip_missing_grad_witness :
    ((∀ (st : MaState) (W : Nat) (lamb : ℚ) (ft : String) (wu tg : Bool)
        (m' : Module) (st' : MaState),
        gradfilter_ma [("a", ⟨true, 0, some 1⟩), ("b", ⟨false, 2, none⟩)]
            (some st) W lamb ft wu tg = .ok (m', st') →
        m'.get? 1 = some ("b", ⟨false, 2, none⟩) ∧ lookupKey "b" st' = lookupKey "b" st) ∧
    (∀ W : Nat, lookupKey "b"
        (maInit W [("a", ⟨true, 0, some 1⟩), ("b", ⟨false, 2, none⟩)]) = none) ∧
    (∀ (st : EmaState) (alpha lamb : ℚ) (tg : Bool) (m' : Module) (st' : EmaState),
        gradfilter_ema [("a", ⟨true, 0, some 1⟩), ("b", ⟨false, 2, none⟩)]
            (some st) alpha lamb tg = .ok (m', st') →
        m'.get? 1 = some ("b", ⟨false, 2, none⟩) ∧ lookupKey "b" st' = lookupKey "b" st) ∧
    lookupKey "b" (emaInit [("a", ⟨true, 0, some 1⟩), ("b", ⟨false, 2, none⟩)]) = none ∧
    (∀ (st : KalmanState) (pn mn lamb : ℚ) (m' : Module) (st' : KalmanState),
        gradfilter_kalman [("a", ⟨true, 0, some 1⟩), ("b", ⟨false, 2, none⟩)]
            (some st) pn mn lamb = .ok (m', st') →
        m'.get? 1 = some ("b", ⟨false, 2, none⟩) ∧ lookupKey "b" st' = lookupKey "b" st) ∧
    (∀ mn : ℚ, lookupKey "b"
        (kalmanInit mn [("a", ⟨true, 0, some 1⟩), ("b", ⟨false, 2, none⟩)]) = none) ∧
    (∀ (grads : Option SmootherState) (beta pp : ℚ),
        (smoother [("a", ⟨true, 0, some 1⟩), ("b", ⟨false, 2, none⟩)]
            grads beta pp).1.get? 1 = some ("b", ⟨false, 2, none⟩) ∧
        (smoother [("a", ⟨true, 0, some 1⟩), ("b", ⟨false, 2, none⟩)]
            grads beta pp).2 = grads.getD (smootherInit
              [("a", ⟨true, 0, some 1⟩), ("b", ⟨false, 2, none⟩)])) ∧
    lookupKey "b" (smootherInit
        [("a", ⟨true, 0, some 1⟩), ("b", ⟨false, 2, none⟩)]) = none) :=
  skip_missing_grad [("a", ⟨true, 0, some 1⟩), ("b", ⟨false, 2, none⟩)] 1 "b"
    ⟨false, 2, none⟩ (by simp [namesOf]) rfl rfl

theorem aggregate_eq_none {ft : String} (h1 : ft ≠ "mean") (h2 : ft ≠ "sum")
    (buf : List ℚ) : aggregate ft buf = none := by
  rw [aggregate, if_neg h1, if_neg h2]

theorem maLoop_error_gradsOf {W : Nat} {lamb : ℚ} {ft : String} {wu tg : Bool}
    (hft1 : ft ≠ "mean") (hft2 : ft ≠ "sum") :
    ∀ {m : Module} {st st' : MaState} {msg : String} {m' : Module},
      maLoop W lamb ft wu tg m st = .error (msg, m', st') → gradsOf m' = gradsOf m := by
  intro m
  induction m with
  | nil =>
    intro st st' msg m' h
    rw [maLoop_nil_eq] at h
    simp at h
  | cons hd tl ih =>
    obtain ⟨n, p⟩ := hd
    intro st st' msg m' h
    simp only [maLoop] at h
    split at h
    next hq =>
      split at h
      next hl =>
        obtain ⟨-, h2, -⟩ := Prod.mk.injEq .. ▸ Prod.mk.injEq .. ▸ Except.error.inj h
        rw [← h2]
      next d hl =>
        split at h
        next hc =>
          split at h
          next hagg =>
            obtain ⟨-, h2, -⟩ := Prod.mk.injEq .. ▸ Prod.mk.injEq .. ▸ Except.error.inj h
            rw [← h2]
          next avg hagg =>
            rw [aggregate_eq_none hft1 hft2] at hagg
            exact Option.noConfusion hagg
        next hc =>
          obtain ⟨m₁, rfl, hrec⟩ := consOk_eq_error.mp h
          have htl := ih hrec
          simp only [gradsOf, List.map_cons] at htl ⊢
          rw [htl]
    next hq =>
      obtain ⟨m₁, rfl, hrec⟩ := consOk_eq_error.mp h
      have htl := ih hrec
      simp only [gradsOf, List.map_cons] at htl ⊢
      rw [htl]

/-- C2 counterexample: with `warmup = false` the trigger is ignored: a
`trigger = true` MovingAverage call still modifies the gradient
(input gradient `1` comes back as `2`), refuting the claim for every
value of the warmup flag. -/
theorem ma_trigger_cex :
    gradfilter_ma [("w", ⟨true, 0, some 1⟩)] none 2 1 "mean" false true
      = .ok ([("w", ⟨true, 0, some 2⟩)], [("w", ⟨2, [1]⟩)]) ∧
    gradsOf [("w", (⟨true, 0, some 2⟩ : Param))]
      ≠ gradsOf [("w", (⟨true, 0, some 1⟩ : Param))] := by
  constructor
  · simp only [gradfilter_ma, maLoop, maInit, initState, lookupKey, updateKey,
      GDeque.push, GDeque.len, aggregate, consOk, Option.getD_some, Option.isSome_some,
      List.filterMap_cons, List.filterMap_nil, String.reduceEq, String.reduceAppend,
      reduceIte]
    norm_num
  · simp only [gradsOf, List.map_cons, List.map_nil]
    intro hcontra
    have h2 := Prod.mk.injEq .. ▸ (List.cons.injEq .. ▸ hcontra).1
    have h3 := Option.some.inj h2.2
    norm_num at h3

/-- C2 amended: when `warmup = true`, a `trigger = true` MovingAverage
call appends the gradient snapshot to every qualifying parameter's buffer
while returning the module (hence every gradient) unmodified; when
`warmup = false` the trigger is ignored and filtering applies
(see the counterexample). -/
theorem ma_trigger_bypass_warmup (m : Module) (st : MaState) (W : Nat) (lamb : ℚ)
    (ft : String) (m' : Module) (st' : MaState)
    (hnd : (namesOf m).Nodup)
    (h : gradfilter_ma m (some st) W lamb ft true true = .ok (m', st')) :
    m' = m ∧
    ∀ n p d, lookupKey n m = some p → (p.requiresGrad && p.grad.isSome) = true →
      lookupKey n st = some d →
      lookupKey n st' = some (d.push (p.grad.getD 0)) := by
  rw [gradfilter_ma, Option.getD_some] at h
  exact ⟨maLoop_true_true_fst h,
    fun n p d hm hg hst => maLoop_true_true_push hnd h n p d hm hg hst⟩

/-- Witness for the amended C2: a concrete triggered warmup call returns
the module unchanged and appends `1` to the window buffer. -/
theorem ma_trigger_bypass_warmup_witness :
    [("w", (⟨true, 0, some 1⟩ : Param))] = [("w", (⟨true, 0, some 1⟩ : Param))] ∧
    ∀ n p d, lookupKey n [("w", (⟨true, 0, some 1⟩ : Param))] = some p →
      (p.requiresGrad && p.grad.isSome) = true →
      lookupKey n [("w", (⟨2, []⟩ : GDeque))] = some d →
      lookupKey n [("w", (⟨2, [1]⟩ : GDeque))] = some (d.push (p.grad.getD 0)) :=
  ma_trigger_bypass_warmup [("w", ⟨true, 0, some 1⟩)] [("w", ⟨2, []⟩)] 2 1 "mean"
    [("w", ⟨true, 0, some 1⟩)] [("w", ⟨2, [1]⟩)] (by simp [namesOf]) (by
      simp only [gradfilter_ma, maLoop, maInit, initState, lookupKey, updateKey,
        GDeque.push, GDeque.len, aggregate, consOk, Option.getD_some, Option.isSome_some,
        List.filterMap_cons, List.filterMap_nil, String.reduceEq, String.reduceAppend,
        reduceIte]
      norm_num)

/-- C6: on the very first Exponential call for a parameter (no prior
state, `trigger = false`) the accumulator stored in the returned state
equals the raw input gradient exactly, for every `alpha ∈ [0, 1]`. -/
theorem ema_seed (m : Module) (alpha lamb : ℚ) (m' : Module) (st' : EmaState)
    (h0 : 0 ≤ alpha) (h1 : alpha ≤ 1)
    (hnd : (namesOf m).Nodup)
    (h : gradfilter_ema m none alpha lamb false = .ok (m', st')) :
    ∀ n p, lookupKey n m = some p → (p.requiresGrad && p.grad.isSome) = true →
      lookupKey n st' = p.grad := by
  rw [gradfilter_ema] at h
  simp only [Option.getD_none] at h
  intro n p hm hgood
  have hinit : lookupKey n (emaInit m) = some (p.grad.getD 0) :=
    lookupKey_initState_of_good hnd (mem_of_lookupKey hm) hgood
  have hfin := emaLoop_seed hnd h n p hm hgood hinit
  obtain ⟨g, hg⟩ := Option.isSome_iff_exists.mp (Bool.and_elim_right hgood)
  rw [hfin, hg, Option.getD_some]

/-- Witness for C6: first Exponential call with `alpha = 1/2`, `lamb = 3`
on gradient `5` stores accumulator `5`. -/
theorem ema_seed_witness :
    lookupKey "w" [("w", (5 : ℚ))] = (⟨true, 0, some 5⟩ : Param).grad :=
  ema_seed [("w", ⟨true, 0, some 5⟩)] (1/2) 3 [("w", ⟨true, 0, some 5⟩)] [("w", 5)]
    (by norm_num) (by norm_num) (by simp [namesOf]) (by
      simp only [gradfilter_ema, emaLoop, emaInit, initState, lookupKey, updateKey,
        consOk, Option.getD_some, Option.getD_none, Option.isSome_some,
        List.filterMap_cons, List.filterMap_nil, String.reduceEq, String.reduceAppend,
        reduceIte]
      norm_num)
    "w" ⟨true, 0, some 5⟩ (by simp [lookupKey]) rfl

/-- C9 counterexample: an unrecognized aggregation mode `"median"` in the
MovingAverage filter raises only once the modification condition holds,
and by the time it raises the current gradient has already been appended
to the raising parameter's window buffer: the state carried by the raise
differs from the input state, refuting "no partial mutation". -/
theorem invalid_config_cex :
    gradfilter_ma [("a", ⟨true, 0, some 1⟩), ("b", ⟨true, 0, some 1⟩)]
        (some [("a", ⟨1, []⟩), ("b", ⟨1, []⟩)]) 1 1 "median" true false
      = .error ("Unrecognized filter_type median",
          [("a", ⟨true, 0, some 1⟩), ("b", ⟨true, 0, some 1⟩)],
          [("a", ⟨1, [1]⟩), ("b", ⟨1, []⟩)]) ∧
    ([("a", (⟨1, [1]⟩ : GDeque)), ("b", ⟨1, []⟩)] : MaState)
      ≠ [("a", ⟨1, []⟩), ("b", ⟨1, []⟩)] := by
  constructor
  · simp only [gradfilter_ma, maLoop, maInit, initState, lookupKey, updateKey,
      GDeque.push, GDeque.len, aggregate, consOk, Option.getD_some, Option.isSome_some,
      List.filterMap_cons, List.filterMap_nil, String.reduceEq, String.reduceAppend,
      reduceIte]
    norm_num
  · simp

/-- C9 amended: an unrecognized filter kind makes the training-step
dispatch raise `ValueError` synchronously, before any filter is invoked,
any state created or any gradient touched; an unrecognized aggregation
mode in the MovingAverage filter raises `ValueError` leaving every
gradient unmodified, but the window buffers of parameters processed up to
the raise have already been appended to (partial state mutation occurs,
and only once the modification condition first holds). -/
theorem invalid_config_fail_fast :
    (∀ (args : TrainArgs) (trigger : Bool) (m : Module) (grads : Option AnyState),
      args.filter ≠ "none" → args.filter ≠ "ma" → args.filter ≠ "ema" →
      args.filter ≠ "smoother" → args.filter ≠ "kalman" →
      filterStep args trigger m grads
        = .error ("Invalid update filter type `" ++ args.filter ++ "`")) ∧
    (∀ (ft : String) (W : Nat) (lamb : ℚ) (wu tg : Bool) (m : Module) (st : MaState)
        (msg : String) (m' : Module) (st' : MaState),
      ft ≠ "mean" → ft ≠ "sum" →
      gradfilter_ma m (some st) W lamb ft wu tg = .error (msg, m', st') →
      gradsOf m' = gradsOf m) := by
  constructor
  · intro args trigger m grads hn hma hema hsm hka
    rw [filterStep.eq_def, if_neg hn, if_neg hma, if_neg hema, if_neg hsm, if_neg hka]
  · intro ft W lamb wu tg m st msg m' st' hft1 hft2 h
    rw [gradfilter_ma, Option.getD_some] at h
    exact maLoop_error_gradsOf hft1 hft2 h

/-- Witness for the amended C9: the dispatch rejects kind `"boo"`, and a
concrete `"median"` MovingAverage raise leaves the gradients unmodified. -/
theorem invalid_config_fail_fast_witness :
    filterStep ⟨"boo", 1, 1, 1, 1, 1, 1, 1⟩ false [] none
      = .error ("Invalid update filter type `" ++ "boo" ++ "`") ∧
    gradsOf [("a", (⟨true, 0, some 1⟩ : Param)), ("b", ⟨true, 0, some 1⟩)]
      = gradsOf [("a", (⟨true, 0, some 1⟩ : Param)), ("b", ⟨true, 0, some 1⟩)] :=
  ⟨invalid_config_fail_fast.1 ⟨"boo", 1, 1, 1, 1, 1, 1, 1⟩ false [] none
      (by simp) (by simp) (by simp) (by simp) (by simp),
    invalid_config_fail_fast.2 "median" 1 1 true false
      [("a", ⟨true, 0, some 1⟩), ("b", ⟨true, 0, some 1⟩)]
      [("a", ⟨1, []⟩), ("b", ⟨1, []⟩)] "Unrecognized filter_type median"
      [("a", ⟨true, 0, some 1⟩), ("b", ⟨true, 0, some 1⟩)]
      [("a", ⟨1, [1]⟩), ("b", ⟨1, []⟩)] (by simp) (by simp) (by
        simp only [gradfilter_ma, maLoop, maInit, initState, lookupKey, updateKey,
          GDeque.push, GDeque.len, aggregate, consOk, Option.getD_some, Option.isSome_some,
          List.filterMap_cons, List.filterMap_nil, String.reduceEq, String.reduceAppend,
          reduceIte]
        norm_num)⟩

/-- C8 counterexample: for identical buffer contents `[1]` (becoming
`[1, 1]` after the append), input gradient `1`, `lamb = 1`: the sum-mode
output gradient is `3`, the mean-mode output gradient is `2`, the buffer
length is `2`, and `3 ≠ 2 * 2`: the full results are not related by
multiplication with the buffer length (only the increments are). -/
theorem ma_sum_vs_mean_cex :
    gradfilter_ma [("w", ⟨true, 0, some 1⟩)] (some [("w", ⟨2, [1]⟩)]) 2 1 "sum" true false
      = .ok ([("w", ⟨true, 0, some 3⟩)], [("w", ⟨2, [1, 1]⟩)]) ∧
    gradfilter_ma [("w", ⟨true, 0, some 1⟩)] (some [("w", ⟨2, [1]⟩)]) 2 1 "mean" true false
      = .ok ([("w", ⟨true, 0, some 2⟩)], [("w", ⟨2, [1, 1]⟩)]) ∧
    (3 : ℚ) ≠ 2 * (([(1 : ℚ), 1].length : ℚ)) := by
  refine ⟨?_, ?_, ?_⟩ <;>
    first
    | · simp only [gradfilter_ma, maLoop, maInit, initState, lookupKey, updateKey,
          GDeque.push, GDeque.len, aggregate, consOk, Option.getD_some, Option.isSome_some,
          List.filterMap_cons, List.filterMap_nil, String.reduceEq, String.reduceAppend,
          reduceIte]
        norm_num
    | norm_num

/-- C8 amended: for a qualifying parameter and identical window-buffer
contents, the gradient increment produced by `filter_type = "sum"` equals
the increment produced by `filter_type = "mean"` multiplied by the current
buffer length: `gS - g = (gM - g) * len`. -/
theorem ma_sum_vs_mean (n : String) (dta g lamb : ℚ) (d : GDeque) (W : Nat)
    (wu tg : Bool) (mS mM : Module) (stS stM : MaState) (gS gM : ℚ)
    (hS : gradfilter_ma [(n, ⟨true, dta, some g⟩)] (some [(n, d)]) W lamb "sum" wu tg
      = .ok (mS, stS))
    (hM : gradfilter_ma [(n, ⟨true, dta, some g⟩)] (some [(n, d)]) W lamb "mean" wu tg
      = .ok (mM, stM))
    (hgS : gradsOf mS = [(n, some gS)])
    (hgM : gradsOf mM = [(n, some gM)]) :
    gS - g = (gM - g) * ((d.push g).buf.length : ℚ) := by
  rw [gradfilter_ma, Option.getD_some] at hS hM
  simp [maLoop, lookupKey, updateKey, consOk, aggregate] at hS hM
  by_cases hc : wu = false ∨ ((d.push g).len = W ∧ tg = false)
  · rw [if_pos hc] at hS hM
    obtain ⟨h1, -⟩ := Prod.mk.injEq .. ▸ Except.ok.inj hS
    obtain ⟨h2, -⟩ := Prod.mk.injEq .. ▸ Except.ok.inj hM
    rw [← h1] at hgS
    rw [← h2] at hgM
    simp [gradsOf] at hgS hgM
    rw [← hgS, ← hgM]
    rcases Nat.eq_zero_or_pos (d.push g).buf.length with hL | hL
    · obtain hbuf := List.length_eq_zero.mp hL
      rw [hbuf]
      simp
    · have hL0 : ((d.push g).buf.length : ℚ) ≠ 0 := by
        exact_mod_cast Nat.pos_iff_ne_zero.mp hL
      field_simp
      ring
  · rw [if_neg hc] at hS hM
    obtain ⟨h1, -⟩ := Prod.mk.injEq .. ▸ Except.ok.inj hS
    obtain ⟨h2, -⟩ := Prod.mk.injEq .. ▸ Except.ok.inj hM
    rw [← h1] at hgS
    rw [← h2] at hgM
    simp [gradsOf] at hgS hgM
    rw [← hgS, ← hgM]
    ring

/-- Witness for the amended C8: sum result `3`, mean result `2`, input
gradient `1`, buffer length `2`: `3 - 1 = (2 - 1) * 2`. -/
theorem ma_sum_vs_mean_witness :
    (3 : ℚ) - 1 = ((2 : ℚ) - 1) * ((((⟨2, [1]⟩ : GDeque).push 1).buf.length : Nat) : ℚ) :=
  ma_sum_vs_mean "w" 0 1 1 ⟨2, [1]⟩ 2 true false
    [("w", ⟨true, 0, some 3⟩)] [("w", ⟨true, 0, some 2⟩)]
    [("w", ⟨2, [1, 1]⟩)] [("w", ⟨2, [1, 1]⟩)] 3 2
    (by
      simp only [gradfilter_ma, maLoop, maInit, initState, lookupKey, updateKey,
        GDeque.push, GDeque.len, aggregate, consOk, Option.getD_some, Option.isSome_some,
        List.filterMap_cons, List.filterMap_nil, String.reduceEq, String.reduceAppend,
        reduceIte]
      norm_num)
    (by
      simp only [gradfilter_ma, maLoop, maInit, initState, lookupKey, updateKey,
        GDeque.push, GDeque.len, aggregate, consOk, Option.getD_some, Option.isSome_some,
        List.filterMap_cons, List.filterMap_nil, String.reduceEq, String.reduceAppend,
        reduceIte]
      norm_num)
    rfl rfl

/-! ### Kalman convergence analysis -/

theorem kalmanStep_P_eq {pn mn g : ℚ} (s : KState) (h : s.P + pn + mn ≠ 0) :
    (kalmanStep pn mn g s).P = mn * (s.P + pn) / (s.P + pn + mn) := by
  simp only [kalmanStep]
  field_simp

theorem kalmanStep_x_eq {pn mn g : ℚ} (s : KState) (h : s.P + pn + mn ≠ 0) :
    g - (kalmanStep pn mn g s).x = mn / (s.P + pn + mn) * (g - s.x) := by
  simp only [kalmanStep]
  field_simp
  ring

theorem kalman_inv {Q R g : ℚ} (hQ : 0 < Q) (hR : 0 < R) :
    ∀ k, 0 < (kalmanIter Q R g k).P ∧
      0 < (kalmanIter Q R g k).P ^ 2 + (kalmanIter Q R g k).P * Q - R * Q := by
  intro k
  induction k with
  | zero =>
    constructor
    · exact hR
    · show 0 < R ^ 2 + R * Q - R * Q
      nlinarith
  | succ k ih =>
    obtain ⟨hP, hφ⟩ := ih
    have hs : (0 : ℚ) < (kalmanIter Q R g k).P + Q + R := by linarith
    constructor
    · show 0 < (kalmanStep Q R g (kalmanIter Q R g k)).P
      rw [kalmanStep_P_eq _ (ne_of_gt hs)]
      exact div_pos (mul_pos hR (by linarith)) hs
    · show 0 < (kalmanStep Q R g (kalmanIter Q R g k)).P ^ 2
          + (kalmanStep Q R g (kalmanIter Q R g k)).P * Q - R * Q
      rw [kalmanStep_P_eq _ (ne_of_gt hs)]
      have hid : (R * ((kalmanIter Q R g k).P + Q) / ((kalmanIter Q R g k).P + Q + R)) ^ 2
          + (R * ((kalmanIter Q R g k).P + Q) / ((kalmanIter Q R g k).P + Q + R)) * Q - R * Q
          = R ^ 2 * ((kalmanIter Q R g k).P ^ 2 + (kalmanIter Q R g k).P * Q - R * Q)
            / ((kalmanIter Q R g k).P + Q + R) ^ 2 := by
        field_simp
        ring
      rw [hid]
      exact div_pos (mul_pos (pow_pos hR 2) hφ) (pow_pos hs 2)

theorem kalman_P_decreasing {Q R g : ℚ} (hQ : 0 < Q) (hR : 0 < R) :
    ∀ k, (kalmanIter Q R g (k + 1)).P < (kalmanIter Q R g k).P := by
  intro k
  obtain ⟨hP, hφ⟩ := kalman_inv hQ hR (g := g) k
  have hs : (0 : ℚ) < (kalmanIter Q R g k).P + Q + R := by linarith
  show (kalmanStep Q R g (kalmanIter Q R g k)).P < _
  rw [kalmanStep_P_eq _ (ne_of_gt hs), div_lt_iff hs]
  nlinarith

theorem kalman_phi_decay {Q R g : ℚ} (hQ : 0 < Q) (hR : 0 < R) :
    ∀ k, ((kalmanIter Q R g (k + 1)).P ^ 2 + (kalmanIter Q R g (k + 1)).P * Q - R * Q)
        * (Q + R) ^ 2
      ≤ R ^ 2 * ((kalmanIter Q R g k).P ^ 2 + (kalmanIter Q R g k).P * Q - R * Q) := by
  intro k
  obtain ⟨hP, hφ⟩ := kalman_inv hQ hR (g := g) k
  have hs : (0 : ℚ) < (kalmanIter Q R g k).P + Q + R := by linarith
  have hid : (kalmanIter Q R g (k + 1)).P ^ 2 + (kalmanIter Q R g (k + 1)).P * Q - R * Q
      = R ^ 2 * ((kalmanIter Q R g k).P ^ 2 + (kalmanIter Q R g k).P * Q - R * Q)
        / ((kalmanIter Q R g k).P + Q + R) ^ 2 := by
    show (kalmanStep Q R g (kalmanIter Q R g k)).P ^ 2
        + (kalmanStep Q R g (kalmanIter Q R g k)).P * Q - R * Q = _
    rw [kalmanStep_P_eq _ (ne_of_gt hs)]
    field_simp
    ring
  rw [hid, div_mul_eq_mul_div, div_le_iff (pow_pos hs 2)]
  have hsq : (Q + R) ^ 2 ≤ ((kalmanIter Q R g k).P + Q + R) ^ 2 := by nlinarith
  nlinarith [mul_le_mul_of_nonneg_left hsq (mul_nonneg (sq_nonneg R) hφ.le)]

theorem kalman_x_abs_step {Q R g : ℚ} (hQ : 0 < Q) (hR : 0 < R) (k : Nat) :
    |g - (kalmanIter Q R g (k + 1)).x|
      = R / ((kalmanIter Q R g k).P + Q + R) * |g - (kalmanIter Q R g k).x| := by
  obtain ⟨hP, -⟩ := kalman_inv hQ hR (g := g) k
  have hs : (0 : ℚ) < (kalmanIter Q R g k).P + Q + R := by linarith
  have hstep : g - (kalmanIter Q R g (k + 1)).x
      = R / ((kalmanIter Q R g k).P + Q + R) * (g - (kalmanIter Q R g k).x) :=
    kalmanStep_x_eq _ (ne_of_gt hs)
  rw [hstep, abs_mul, abs_of_pos (div_pos hR hs)]

theorem kalman_x_geom {Q R g : ℚ} (hQ : 0 < Q) (hR : 0 < R) :
    ∀ k, |g - (kalmanIter Q R g k).x| ≤ (R / (Q + R)) ^ k * |g| := by
  intro k
  induction k with
  | zero =>
    show |g - 0| ≤ 1 * |g|
    rw [sub_zero, one_mul]
  | succ k ih =>
    rw [kalman_x_abs_step hQ hR k]
    obtain ⟨hP, -⟩ := kalman_inv hQ hR (g := g) k
    have hs : (0 : ℚ) < (kalmanIter Q R g k).P + Q + R := by linarith
    have hr : R / ((kalmanIter Q R g k).P + Q + R) ≤ R / (Q + R) := by
      rw [div_le_div_iff hs (by linarith)]
      nlinarith
    calc R / ((kalmanIter Q R g k).P + Q + R) * |g - (kalmanIter Q R g k).x|
        ≤ R / (Q + R) * |g - (kalmanIter Q R g k).x| :=
          mul_le_mul_of_nonneg_right hr (abs_nonneg _)
      _ ≤ R / (Q + R) * ((R / (Q + R)) ^ k * |g|) :=
          mul_le_mul_of_nonneg_left ih (le_of_lt (div_pos hR (by linarith)))
      _ = (R / (Q + R)) ^ (k + 1) * |g| := by ring

theorem kalman_Pstar_lt {Q R g : ℚ} (hQ : 0 < Q) (hR : 0 < R) (k : Nat) :
    (-(Q : ℝ) + Real.sqrt ((Q : ℝ) ^ 2 + 4 * Q * R)) / 2 < ((kalmanIter Q R g k).P : ℝ) := by
  obtain ⟨hP, hφ⟩ := kalman_inv hQ hR (g := g) k
  have hPr : (0 : ℝ) < ((kalmanIter Q R g k).P : ℝ) := by exact_mod_cast hP
  have hφr : (0 : ℝ) < ((kalmanIter Q R g k).P : ℝ) ^ 2
      + ((kalmanIter Q R g k).P : ℝ) * (Q : ℝ) - (R : ℝ) * (Q : ℝ) := by exact_mod_cast hφ
  have hQr : (0 : ℝ) < (Q : ℝ) := by exact_mod_cast hQ
  have h2 : (0 : ℝ) < 2 * ((kalmanIter Q R g k).P : ℝ) + Q := by linarith
  have hlt : Real.sqrt ((Q : ℝ) ^ 2 + 4 * Q * R) < 2 * ((kalmanIter Q R g k).P : ℝ) + Q := by
    rw [Real.sqrt_lt' h2]
    nlinarith
  linarith

theorem kalman_Pstar_fixed {Qr Rr : ℝ} (hQ : 0 < Qr) (hR : 0 < Rr) :
    ((-Qr + Real.sqrt (Qr ^ 2 + 4 * Qr * Rr)) / 2) ^ 2
      + Qr * ((-Qr + Real.sqrt (Qr ^ 2 + 4 * Qr * Rr)) / 2) - Rr * Qr = 0 := by
  have hnn : (0 : ℝ) ≤ Qr ^ 2 + 4 * Qr * Rr := by positivity
  have hsq : Real.sqrt (Qr ^ 2 + 4 * Qr * Rr) ^ 2 = Qr ^ 2 + 4 * Qr * Rr :=
    Real.sq_sqrt hnn
  linear_combination hsq / 4

theorem kalman_Pstar_nonneg {Qr Rr : ℝ} (hQ : 0 < Qr) (hR : 0 < Rr) :
    0 ≤ (-Qr + Real.sqrt (Qr ^ 2 + 4 * Qr * Rr)) / 2 := by
  have h1 : Qr ≤ Real.sqrt (Qr ^ 2 + 4 * Qr * Rr) :=
    (Real.le_sqrt' hQ).mpr (by nlinarith)
  linarith

theorem kalman_x_tendsto {Q R g : ℚ} (hQ : 0 < Q) (hR : 0 < R) :
    Filter.Tendsto (fun k => ((kalmanIter Q R g k).x : ℝ)) Filter.atTop (nhds (g : ℝ)) := by
  have hQr : (0 : ℝ) < (Q : ℝ) := by exact_mod_cast hQ
  have hRr : (0 : ℝ) < (R : ℝ) := by exact_mod_cast hR
  have hQRr : (0 : ℝ) < (Q : ℝ) + R := by linarith
  rw [tendsto_iff_dist_tendsto_zero]
  have heq : (fun k => dist ((kalmanIter Q R g k).x : ℝ) (g : ℝ))
      = fun k => |(g : ℝ) - ((kalmanIter Q R g k).x : ℝ)| := by
    funext k
    rw [Real.dist_eq, abs_sub_comm]
  rw [heq]
  have hb : ∀ k : Nat, |(g : ℝ) - ((kalmanIter Q R g k).x : ℝ)|
      ≤ ((R : ℝ) / (Q + R)) ^ k * |(g : ℝ)| := by
    intro k
    exact_mod_cast kalman_x_geom hQ hR (g := g) k
  have h0 : (0 : ℝ) ≤ (R : ℝ) / (Q + R) := by positivity
  have h1 : (R : ℝ) / (Q + R) < 1 := by
    rw [div_lt_one hQRr]
    linarith
  have hp := tendsto_pow_atTop_nhds_zero_of_lt_one h0 h1
  exact squeeze_zero (fun k => abs_nonneg _) hb (by simpa using hp.mul_const |(g : ℝ)|)

theorem kalman_P_tendsto {Q R g : ℚ} (hQ : 0 < Q) (hR : 0 < R) :
    Filter.Tendsto (fun k => ((kalmanIter Q R g k).P : ℝ)) Filter.atTop
      (nhds ((-(Q : ℝ) + Real.sqrt ((Q : ℝ) ^ 2 + 4 * Q * R)) / 2)) := by
  have hQr : (0 : ℝ) < (Q : ℝ) := by exact_mod_cast hQ
  have hRr : (0 : ℝ) < (R : ℝ) := by exact_mod_cast hR
  have hQRr : (0 : ℝ) < (Q : ℝ) + R := by linarith
  have hq0 : (0 : ℝ) ≤ ((R : ℝ) / (Q + R)) ^ 2 := by positivity
  have hq1 : ((R : ℝ) / (Q + R)) ^ 2 < 1 := by
    have hrlt : (R : ℝ) / (Q + R) < 1 := by
      rw [div_lt_one hQRr]
      linarith
    have hr0 : (0 : ℝ) ≤ (R : ℝ) / (Q + R) := by positivity
    nlinarith
  have hgeo : ∀ k, ((kalmanIter Q R g k).P : ℝ) ^ 2 + ((kalmanIter Q R g k).P : ℝ) * Q - R * Q
      ≤ (R : ℝ) ^ 2 * (((R : ℝ) / (Q + R)) ^ 2) ^ k := by
    intro k
    induction k with
    | zero =>
      show ((R : ℚ) : ℝ) ^ 2 + ((R : ℚ) : ℝ) * Q - R * Q ≤ _
      rw [pow_zero, mul_one]
      nlinarith
    | succ k ih =>
      have hdecayr : (((kalmanIter Q R g (k + 1)).P : ℝ) ^ 2
            + ((kalmanIter Q R g (k + 1)).P : ℝ) * Q - R * Q) * ((Q : ℝ) + R) ^ 2
          ≤ (R : ℝ) ^ 2 * (((kalmanIter Q R g k).P : ℝ) ^ 2
            + ((kalmanIter Q R g k).P : ℝ) * Q - R * Q) := by
        exact_mod_cast kalman_phi_decay hQ hR (g := g) k
      have h1 : ((kalmanIter Q R g (k + 1)).P : ℝ) ^ 2
          + ((kalmanIter Q R g (k + 1)).P : ℝ) * Q - R * Q
          ≤ ((R : ℝ) / (Q + R)) ^ 2 * (((kalmanIter Q R g k).P : ℝ) ^ 2
            + ((kalmanIter Q R g k).P : ℝ) * Q - R * Q) := by
        rw [div_pow, div_mul_eq_mul_div, le_div_iff (by positivity)]
        linarith
      calc ((kalmanIter Q R g (k + 1)).P : ℝ) ^ 2
            + ((kalmanIter Q R g (k + 1)).P : ℝ) * Q - R * Q
          ≤ ((R : ℝ) / (Q + R)) ^ 2 * (((kalmanIter Q R g k).P : ℝ) ^ 2
            + ((kalmanIter Q R g k).P : ℝ) * Q - R * Q) := h1
        _ ≤ ((R : ℝ) / (Q + R)) ^ 2 * ((R : ℝ) ^ 2 * (((R : ℝ) / (Q + R)) ^ 2) ^ k) :=
            mul_le_mul_of_nonneg_left ih hq0
        _ = (R : ℝ) ^ 2 * (((R : ℝ) / (Q + R)) ^ 2) ^ (k + 1) := by ring
  have hub : ∀ k, ((kalmanIter Q R g k).P : ℝ)
      ≤ (-(Q : ℝ) + Real.sqrt ((Q : ℝ) ^ 2 + 4 * Q * R)) / 2
        + (R : ℝ) ^ 2 * (((R : ℝ) / (Q + R)) ^ 2) ^ k / Q := by
    intro k
    have hPl := kalman_Pstar_lt (g := g) hQ hR k
    have hfix := kalman_Pstar_fixed hQr hRr
    have hS0 := kalman_Pstar_nonneg hQr hRr
    obtain ⟨hP, -⟩ := kalman_inv hQ hR (g := g) k
    have hPr : (0 : ℝ) < ((kalmanIter Q R g k).P : ℝ) := by exact_mod_cast hP
    have hprod : (((kalmanIter Q R g k).P : ℝ)
          - (-(Q : ℝ) + Real.sqrt ((Q : ℝ) ^ 2 + 4 * Q * R)) / 2) * Q
        ≤ ((kalmanIter Q R g k).P : ℝ) ^ 2 + ((kalmanIter Q R g k).P : ℝ) * Q - R * Q := by
      nlinarith [mul_nonneg (sub_nonneg.mpr hPl.le) (add_nonneg hPr.le hS0)]
    have h2 : ((kalmanIter Q R g k).P : ℝ)
        - (-(Q : ℝ) + Real.sqrt ((Q : ℝ) ^ 2 + 4 * Q * R)) / 2
        ≤ ((R : ℝ) ^ 2 * (((R : ℝ) / (Q + R)) ^ 2) ^ k) / Q := by
      rw [le_div_iff hQr]
      calc (((kalmanIter Q R g k).P : ℝ)
            - (-(Q : ℝ) + Real.sqrt ((Q : ℝ) ^ 2 + 4 * Q * R)) / 2) * Q
          ≤ ((kalmanIter Q R g k).P : ℝ) ^ 2 + ((kalmanIter Q R g k).P : ℝ) * Q - R * Q :=
            hprod
        _ ≤ (R : ℝ) ^ 2 * (((R : ℝ) / (Q + R)) ^ 2) ^ k := hgeo k
    linarith
  apply tendsto_of_tendsto_of_tendsto_of_le_of_le tendsto_const_nhds ?_
    (fun k => (kalman_Pstar_lt (g := g) hQ hR k).le) hub
  have hp := tendsto_pow_atTop_nhds_zero_of_lt_one hq0 hq1
  have h3 : Filter.Tendsto
      (fun k => (R : ℝ) ^ 2 * (((R : ℝ) / (Q + R)) ^ 2) ^ k / Q)
      Filter.atTop (nhds 0) := by
    simpa using (hp.const_mul ((R : ℝ) ^ 2)).div_const (Q : ℝ)
  simpa using h3.const_add ((-(Q : ℝ) + Real.sqrt ((Q : ℝ) ^ 2 + 4 * Q * R)) / 2)

/-- C7: fed the same constant gradient `g` on every call with fixed
process noise `Q > 0` and measurement noise `R > 0`, the per-element
Kalman state evolves by `kalmanIter` (one `gradfilter_kalman` call
performs exactly one predict/update step from the stored state, and the
lazily-created initial state is `kalmanIter 0`); the estimate `x`
monotonically approaches `g` (the error `|g - x|` never increases, it
strictly decreases while `x ≠ g`, and `x` tends to `g`), and the variance
`P` strictly decreases, stays above the fixed point
`P* = (-Q + sqrt (Q^2 + 4*Q*R)) / 2`, and tends to `P*`. -/
theorem kalman_convergence (Q R g lamb : ℚ) (hQ : 0 < Q) (hR : 0 < R) :
    (∀ (nm : String) (dta : ℚ) (k : Nat),
      gradfilter_kalman [(nm, ⟨true, dta, some g⟩)] (some [(nm, kalmanIter Q R g k)])
          Q R lamb
        = .ok ([(nm, ⟨true, dta, some (g + (kalmanIter Q R g (k + 1)).x * lamb)⟩)],
            [(nm, kalmanIter Q R g (k + 1))])) ∧
    (∀ (nm : String) (dta : ℚ),
      kalmanInit R [(nm, ⟨true, dta, some g⟩)] = [(nm, kalmanIter Q R g 0)]) ∧
    (∀ k, |g - (kalmanIter Q R g (k + 1)).x| ≤ |g - (kalmanIter Q R g k).x|) ∧
    (∀ k, (kalmanIter Q R g k).x ≠ g →
      |g - (kalmanIter Q R g (k + 1)).x| < |g - (kalmanIter Q R g k).x|) ∧
    Filter.Tendsto (fun k => ((kalmanIter Q R g k).x : ℝ)) Filter.atTop (nhds (g : ℝ)) ∧
    (∀ k, (kalmanIter Q R g (k + 1)).P < (kalmanIter Q R g k).P) ∧
    (∀ k, (-(Q : ℝ) + Real.sqrt ((Q : ℝ) ^ 2 + 4 * Q * R)) / 2
      < ((kalmanIter Q R g k).P : ℝ)) ∧
    Filter.Tendsto (fun k => ((kalmanIter Q R g k).P : ℝ)) Filter.atTop
      (nhds ((-(Q : ℝ) + Real.sqrt ((Q : ℝ) ^ 2 + 4 * Q * R)) / 2)) := by
  refine ⟨?_, ?_, ?_, ?_, kalman_x_tendsto hQ hR, kalman_P_decreasing hQ hR,
    kalman_Pstar_lt hQ hR, kalman_P_tendsto hQ hR⟩
  · intro nm dta k
    show gradfilter_kalman [(nm, ⟨true, dta, some g⟩)]
        (some [(nm, kalmanIter Q R g k)]) Q R lamb
      = .ok ([(nm, ⟨true, dta,
            some (g + (kalmanStep Q R g (kalmanIter Q R g k)).x * lamb)⟩)],
          [(nm, kalmanStep Q R g (kalmanIter Q R g k))])
    simp [gradfilter_kalman, kalmanLoop, lookupKey, updateKey, consOk]
  · intro nm dta
    simp [kalmanInit, initState, kalmanIter]
  · intro k
    rw [kalman_x_abs_step hQ hR k]
    obtain ⟨hP, -⟩ := kalman_inv hQ hR (g := g) k
    have hs : (0 : ℚ) < (kalmanIter Q R g k).P + Q + R := by linarith
    have hr1 : R / ((kalmanIter Q R g k).P + Q + R) ≤ 1 := by
      rw [div_le_one hs]
      linarith
    exact mul_le_of_le_one_left (abs_nonneg _) hr1
  · intro k hne
    rw [kalman_x_abs_step hQ hR k]
    obtain ⟨hP, -⟩ := kalman_inv hQ hR (g := g) k
    have hs : (0 : ℚ) < (kalmanIter Q R g k).P + Q + R := by linarith
    have habs : 0 < |g - (kalmanIter Q R g k).x| :=
      abs_pos.mpr (sub_ne_zero.mpr (Ne.symm hne))
    have hrlt : R / ((kalmanIter Q R g k).P + Q + R) < 1 := by
      rw [div_lt_one hs]
      linarith
    calc R / ((kalmanIter Q R g k).P + Q + R) * |g - (kalmanIter Q R g k).x|
        < 1 * |g - (kalmanIter Q R g k).x| := mul_lt_mul_of_pos_right hrlt habs
      _ = |g - (kalmanIter Q R g k).x| := one_mul _

/-- Witness for C7: at `Q = R = g = lamb = 1` the hypotheses hold and the
variance decreases on the first step. -/
theorem kalman_convergence_witness :
    (0 : ℚ) < 1 ∧ (kalmanIter 1 1 1 1).P < (kalmanIter 1 1 1 0).P :=
  ⟨by norm_num,
    (kalman_convergence 1 1 1 1 (by norm_num) (by norm_num)).2.2.2.2.2.1 0⟩

end Grokfast
